import Mathlib

/-!
Verification of the codegraph extraction pipeline.

This file gives a shallow embedding, in Lean, of the core algorithms of the
codegraph repository (a Rust system that indexes a source repository into a
property graph), together with theorems about them.

Modelling conventions:

* Tree-sitter is an external collaborator.  A language adapter is driven by
  the list of query matches (each match being a pattern index plus a list of
  named captures); we embed the adapter as a function over such lists.
  A capture carries its row/byte positions; the text of a capture is the
  slice of the source between its byte offsets, exactly what
  `tree_sitter::Node::utf8_text` returns.  Source bytes are modelled as a
  `List Char` (one entry per byte; multi-byte UTF-8 sequences are outside
  the scope of the claims, which only compare slices at capture boundaries).
* Rust `IndexMap`s are modelled as association lists in insertion order;
  `HashMap`s that are only iterated are modelled as association lists as
  well (iteration order abstracted by the list order).
* Rust panics (`unwrap`, `unreachable!`) are modelled with `Option`:
  a step that would panic returns `none`.
* The filesystem probing done by the TypeScript adapter is modelled by an
  oracle structure `FS` supplying `is_dir` / `exists` / `canonicalize`.
-/

namespace Codegraph

/-! ## String helpers mirroring the Rust `str`/`Path` operations used -/

/-- Rust `s.splitn(2, sep)` collected into a list: one element when `sep`
does not occur in `s`, otherwise the part before and the part after the
first occurrence. -/
def splitn2 (sep : Char) (s : String) : List String :=
  let cs := s.toList
  let pre := cs.takeWhile (fun c => c ≠ sep)
  let post := cs.dropWhile (fun c => c ≠ sep)
  match post with
  | [] => [pre.asString]
  | _ :: rest => [pre.asString, rest.asString]

/-- Rust `s.rsplitn(2, pat).next().unwrap_or("")`: the substring after the
last character satisfying `p`, or the whole string when no such character
occurs. -/
def afterLastSep (p : Char → Bool) (s : String) : String :=
  ((s.toList.reverse.takeWhile (fun c => !(p c))).reverse).asString

/-- Rust `s.rsplit_once(c)`: `some (before, after)` split at the last
occurrence of `c`, or `none` when `c` does not occur. -/
def rsplitOnce (c : Char) (s : String) : Option (String × String) :=
  let r := s.toList.reverse
  let a := r.takeWhile (fun x => x ≠ c)
  let b := r.dropWhile (fun x => x ≠ c)
  match b with
  | [] => none
  | _ :: rest => some (rest.reverse.asString, a.reverse.asString)

/-- Rust `s.trim_matches('"')`: drop all leading and trailing `"`. -/
def trimQuotes (s : String) : String :=
  (((s.toList.dropWhile (fun c => c = '"')).reverse.dropWhile
      (fun c => c = '"')).reverse).asString

/-- Rust `s.strip_prefix(pre)`. -/
def stripPrefixOpt (pre s : String) : Option String :=
  if pre.toList.isPrefixOf s.toList then
    some ((s.toList.drop pre.toList.length).asString)
  else none

/-- Rust `from_node_name.rsplitn(2, '/').nth(1).unwrap_or("")`: the part
before the last `/`, or `""` when there is no `/`. -/
def beforeLastSlash (s : String) : String :=
  match rsplitOnce '/' s with
  | some (pre, _) => pre
  | none => ""

/-- The slice of the source between two byte offsets, as a string
(`tree_sitter::Node::utf8_text` / Rust slice indexing). -/
def sliceStr (source : List Char) (a b : Nat) : String :=
  ((source.drop a).take (b - a)).asString

/-- Rust `str::starts_with` (structural, over the character model). -/
def startsWithStr (s pre : String) : Bool :=
  pre.toList.isPrefixOf s.toList

/-- Rust `str::trim` (ASCII/unicode whitespace as `Char.isWhitespace`). -/
def trimChars (s : String) : String :=
  (((s.toList.dropWhile Char.isWhitespace).reverse.dropWhile
      Char.isWhitespace).reverse).asString

/-- Rust `str::contains(char)`. -/
def containsChar (s : String) (c : Char) : Bool :=
  s.toList.any (fun x => x = c)

/-- Rust `str::to_lowercase` (ASCII case mapping suffices here). -/
def toLowerStr (s : String) : String :=
  (s.toList.map Char.toLower).asString

/-- Rust `str::split(sep)` collected into a list (keeps empty pieces). -/
def splitChars (sep : Char) : List Char → List (List Char)
  | [] => [[]]
  | c :: cs =>
    if c = sep then [] :: splitChars sep cs
    else
      match splitChars sep cs with
      | [] => [[c]]
      | g :: gs => (c :: g) :: gs

/-- Rust `str::split(sep)` on strings. -/
def splitAllSep (sep : Char) (s : String) : List String :=
  (splitChars sep s.toList).map List.asString

/-- `Vec::join` / format joining with a separator. -/
def intercalateStr (sep : String) : List String → String
  | [] => ""
  | [x] => x
  | x :: xs => x ++ sep ++ intercalateStr sep xs

/-- Join of two relative path fragments, as Rust `PathBuf::join` behaves on
the relative components that occur in this system. -/
def pathJoin (a b : String) : String :=
  if a = "" then b else if b = "" then a else a ++ "/" ++ b

/-! ## Entity model (`src/types.rs`, plus the `OtherType`/`TypeScript`
variants used by the current adapters) -/

inductive NodeType where
  | Unparsed
  | Directory
  | File
  | Interface
  | Class
  | Function
  | OtherType
deriving DecidableEq, Repr

inductive EdgeType where
  | Contains
  | Imports
  | Inherits
  | References
deriving DecidableEq, Repr

inductive Language where
  | Text
  | Python
  | Go
  | TypeScript
deriving DecidableEq, Repr

structure Node where
  name : String
  type : NodeType
  language : Language
  start_line : Nat
  end_line : Nat
  code : String
  skeleton_code : String
deriving DecidableEq, Repr

/-- `Node::from_type_and_name` (src/types.rs). -/
def Node.from_type_and_name (type : NodeType) (name : String) : Node :=
  { name := name
    type := type
    language := Language.Text
    start_line := 0
    end_line := 0
    code := ""
    skeleton_code := "" }

/-- An edge of the graph (`Edge` in src/types.rs).  The Rust fields `from`,
`to`, `import` and `alias` are renamed `from_`, `to_`, `imp` and `alias_`
because they are reserved words in Lean. -/
structure Edge where
  type : EdgeType
  from_ : Node
  to_ : Node
  imp : Option String
  alias_ : Option String
deriving DecidableEq, Repr

/-- A pending parameter-type reference (`FuncParamType` in src/parser.rs). -/
structure FuncParamType where
  type_name : String
  package_name : Option String
deriving DecidableEq, Repr

/-- A pending import (`PendingImport` in src/parser/common.rs). -/
structure PendingImport where
  language : Language
  source_path : String
  symbol : Option String
  alias_ : Option String
deriving DecidableEq, Repr

/-- `PendingImport::import_name` (src/parser/common.rs).  The
`unreachable!()` branch (both `alias` and `symbol` absent) is modelled as
`none`. -/
def PendingImport.import_name (imp : PendingImport) : Option String :=
  match imp.alias_ with
  | some a => some a
  | none =>
    match imp.symbol with
    | some s => some s
    | none => none

/-! ## Utility functions (`src/util.rs`) -/

/-- `util::get_repo_module_file_path`. -/
def get_repo_module_file_path (repo_path repo_mod_path mod_import_path : String) :
    Option String :=
  (stripPrefixOpt repo_mod_path mod_import_path).map fun rel =>
    let rel := (stripPrefixOpt "/" rel).getD rel
    (splitAllSep '/' rel).foldl
      (fun acc component => if component = "" then acc else pathJoin acc component)
      repo_path

/-- `util::is_go_builtin_type`. -/
def is_go_builtin_type (type_name : String) : Bool :=
  type_name = "bool" ∨ type_name = "byte" ∨ type_name = "rune" ∨
  type_name = "int" ∨ type_name = "int8" ∨ type_name = "int16" ∨
  type_name = "int32" ∨ type_name = "int64" ∨
  type_name = "uint" ∨ type_name = "uint8" ∨ type_name = "uint16" ∨
  type_name = "uint32" ∨ type_name = "uint64" ∨ type_name = "uintptr" ∨
  type_name = "float32" ∨ type_name = "float64" ∨
  type_name = "complex64" ∨ type_name = "complex128" ∨
  type_name = "string" ∨
  type_name = "error" ∨ type_name = "interface\x7b\x7d" ∨ type_name = "any"

/-! ## Insertion-ordered maps (Rust `IndexMap<String, Node>` and the
accumulator `HashMap`s) -/

/-- Association list in insertion order. -/
abbrev NodeMap := List (String × Node)

def mapContains (m : NodeMap) (k : String) : Bool :=
  m.any (fun p => p.1 = k)

def mapFind (m : NodeMap) (k : String) : Option Node :=
  (m.find? (fun p => p.1 = k)).map Prod.snd

/-- `IndexMap::insert`: replace the value at the key's position when the
key is present, append otherwise. -/
def mapInsert (m : NodeMap) (k : String) (v : Node) : NodeMap :=
  match m with
  | [] => [(k, v)]
  | p :: rest => if p.1 = k then (k, v) :: rest else p :: mapInsert rest k v

/-- `HashMap::entry(k).or_insert_with(Vec::new).push` iterated over `vs`
(association-list model). -/
def fptAddMany (m : List (String × List FuncParamType)) (k : String)
    (vs : List FuncParamType) : List (String × List FuncParamType) :=
  if vs = [] then m
  else
    if m.any (fun p => p.1 = k) then
      m.map (fun p => if p.1 = k then (k, p.2 ++ vs) else p)
    else
      m ++ [(k, vs)]

/-! ## Tree-sitter interface model -/

/-- A tagged capture of a tree-sitter query match.  The capture's text is
`sliceStr source startByte endByte` (what `utf8_text` returns). -/
structure Capture where
  name : String
  startRow : Nat
  endRow : Nat
  startByte : Nat
  endByte : Nat
deriving DecidableEq, Repr

/-- A query match: the pattern index together with the captures, in the
order tree-sitter reports them. -/
structure QueryMatch where
  patternIndex : Nat
  captures : List Capture
deriving DecidableEq, Repr

def captureText (source : List Char) (c : Capture) : String :=
  sliceStr source c.startByte c.endByte

/-! ## Go adapter (`src/parser/go.rs`) -/

namespace GoParser

/-- Query patterns of the Go adapter, in the order of the match arms of
`Parser::parse` (src/parser/go.rs).  The numbering mirrors
`QueryPattern::from_repr`; the enum itself lives in a file that is not part
of the sources, but the spec fixes the ordered list of tagged capture
groups per adapter. -/
inductive QueryPattern where
  | Import
  | Interface
  | Class
  | Function
  | Method
deriving DecidableEq, Repr

/-- `QueryPattern::from_repr`. -/
def QueryPattern.from_repr (n : Nat) : Option QueryPattern :=
  match n with
  | 0 => some .Import
  | 1 => some .Interface
  | 2 => some .Class
  | 3 => some .Function
  | 4 => some .Method
  | _ => none

/-- The ambient data of one `Parser::parse` call on one file: the source
bytes, the repo-relative file path (the value of
`file_path.strip_prefix(&self.repo_path)`), the `File` node made by the
walker, and the Go module path from `go.mod`. -/
structure Ctx where
  source : List Char
  repoRelFile : String
  fileNode : Node
  goModulePath : Option String

/-- Adapter state accumulated across matches: the node map, the edge list
and the `func_param_types` map. -/
structure St where
  nodes : NodeMap
  edges : List Edge
  funcParamTypes : List (String × List FuncParamType)
deriving Repr

def St.empty : St := { nodes := [], edges := [], funcParamTypes := [] }

/-- Split of one `import` entry text into `(alias, mod_import_path)`
(the `splitn(2, \' \')` + `trim_matches(\'"\')` logic of the
`reference.import.path` arm). -/
def parseGoImportEntry (pathName : String) : Option String × String :=
  match splitn2 ' ' pathName with
  | [p] => (none, trimQuotes p)
  | [a, p] => (some a, trimQuotes p)
  | _ => (none, "")

/-- Processing of one `reference.import.path` capture text: the emitted
`Imports` edge, if any (src/parser/go.rs, `QueryPattern::Import` arm). -/
def goImportEdgeOfPath (ctx : Ctx) (pathName : String) : Option Edge :=
  let entry := parseGoImportEntry pathName
  match ctx.goModulePath with
  | none => none
  | some goModulePath =>
    match get_repo_module_file_path "" goModulePath entry.2 with
    | none => none
    | some modFilePath =>
      some
        { type := EdgeType.Imports
          from_ := Node.from_type_and_name ctx.fileNode.type ctx.fileNode.name
          to_ := Node.from_type_and_name NodeType.Directory modFilePath
          imp := some (afterLastSep (fun c => c = '/') entry.2)
          alias_ := entry.1 }

/-- `common::parse_simple_interface` / `_class` / `_enum` / `_type_alias`:
these four functions are textually identical up to the main capture name
and the node type, which are taken as parameters here. -/
def parse_simple (mainName : String) (ty : NodeType) (ctx : Ctx)
    (cs : List Capture) : Option Node :=
  cs.foldl
    (fun cur c =>
      if c.name = mainName then
        some
          { name := ""
            type := ty
            language := ctx.fileNode.language
            start_line := c.startRow
            end_line := c.endRow
            code := captureText ctx.source c
            skeleton_code := "" }
      else if c.name = mainName ++ ".name" then
        cur.map (fun n => { n with name := ctx.repoRelFile ++ ":" ++ captureText ctx.source c })
      else cur)
    none

/-- `Parser::parse_func_param_type` (src/parser/go.rs).  The `for`-loop
over the import edges with `break` becomes `findImportTarget`. -/
def findImportTarget (edges : List Edge) (pkg : String) : Option String :=
  match edges with
  | [] => none
  | e :: rest =>
    if e.imp = some pkg then some e.to_.name
    else if e.alias_ = some pkg then some e.to_.name
    else findImportTarget rest pkg

/-- The `(package_name, type_name)` split of the stripped parameter type
(`splitn(2, \'.\')`). -/
def splitPkgType (paramType : String) : Option String × String :=
  match splitn2 '.' paramType with
  | [t] => (none, t)
  | [p, t] => (some p, t)
  | _ => (none, "")

/-- The stripped bare type name: `rsplitn(2, |c| c == \'*\' || c == \']\')`
then `trim`. -/
def stripParamType (param_type_name : String) : String :=
  trimChars (afterLastSep (fun c => c = '*' ∨ c = ']') param_type_name)

/-- `Parser::parse_func_param_type` (src/parser/go.rs). -/
def parse_func_param_type (from_node_name param_type_name : String)
    (import_edges : List Edge) : Option FuncParamType :=
  if startsWithStr param_type_name "func" ∨ startsWithStr param_type_name "struct" ∨
      startsWithStr param_type_name "interface" then
    none
  else
    let paramType := stripParamType param_type_name
    let pt := splitPkgType paramType
    let real_package_name : Option String :=
      match pt.1 with
      | some pkg => findImportTarget import_edges pkg
      | none =>
        let pd := beforeLastSlash from_node_name
        some (if pd = "" then "." else pd)
    if is_go_builtin_type pt.2 then none
    else some { type_name := pt.2, package_name := real_package_name }

/-- Fold state of the capture loop of the `Function` / `Method` arms. -/
structure FnFold where
  current : Option Node
  mainCap : Option Capture
  parentStruct : Option String
  paramTypes : List String
deriving Repr

def FnFold.init : FnFold :=
  { current := none, mainCap := none, parentStruct := none, paramTypes := [] }

/-- One capture of the `Function` / `Method` capture loop
(src/parser/go.rs).  The two arms are textually identical up to the main
capture name (`definition.function` vs `definition.method`) and the
re-parenting capture (`definition.function.first_return_type` vs
`definition.method.receiver_type`); both names are parameters. -/
def goFnCaptureStep (ctx : Ctx) (nodes : NodeMap) (mainName reparentName : String)
    (st : FnFold) (c : Capture) : FnFold :=
  if c.name = mainName then
    { current := some
        { name := ""
          type := NodeType.Function
          language := ctx.fileNode.language
          start_line := c.startRow
          end_line := c.endRow
          code := captureText ctx.source c
          skeleton_code := "" }
      mainCap := some c
      parentStruct := st.parentStruct
      paramTypes := st.paramTypes }
  else if c.name = mainName ++ ".name" then
    { st with current :=
        st.current.map (fun n => { n with name := ctx.repoRelFile ++ ":" ++ captureText ctx.source c }) }
  else if c.name = reparentName then
    let structNodeName := ctx.repoRelFile ++ ":" ++ captureText ctx.source c
    if mapContains nodes structNodeName then
      { st with parentStruct := some (captureText ctx.source c) }
    else st
  else if c.name = mainName ++ ".param_type" then
    { st with paramTypes := st.paramTypes ++ [captureText ctx.source c] }
  else if c.name = mainName ++ ".body" then
    match st.mainCap, st.current with
    | some mc, some n =>
      let skel := sliceStr ctx.source mc.startByte c.startByte ++ "\x7b\n...\n\x7d"
      { st with current := some { n with skeleton_code := skel } }
    | _, _ => st
  else st

def goFnCaptureFold (ctx : Ctx) (nodes : NodeMap) (mainName reparentName : String)
    (cs : List Capture) : FnFold :=
  cs.foldl (goFnCaptureStep ctx nodes mainName reparentName) FnFold.init

/-- The name a function/method node finally gets when it is re-parented
under `parentStruct` (src/parser/go.rs, `curr_node.name.rsplit(\':\')`
logic). -/
def reparentedName (ctx : Ctx) (ps baseName : String) : String :=
  ctx.repoRelFile ++ ":" ++ ps ++ "." ++ afterLastSep (fun c => c = ':') baseName

/-- Post-capture-loop processing of a `Function`/`Method` match: the
re-parent rename, the parameter-type records, and the deduplicated node
insert plus `Contains` edge (src/parser/go.rs).  `none` models the two
`unwrap` panics on the parent lookup. -/
def goFnFinish (ctx : Ctx) (st : St) (ff : FnFold) : Option St :=
  match ff.current with
  | none => some st
  | some cn0 =>
    let cn :=
      match ff.parentStruct with
      | some ps => { cn0 with name := reparentedName ctx ps cn0.name }
      | none => cn0
    let fpts := ff.paramTypes.filterMap
      (fun pt => parse_func_param_type cn.name pt st.edges)
    let fptMap := fptAddMany st.funcParamTypes cn.name fpts
    if mapContains st.nodes cn.name then
      some { st with funcParamTypes := fptMap }
    else
      let nodes2 := mapInsert st.nodes cn.name cn
      match ff.parentStruct with
      | some _ =>
        match rsplitOnce '.' cn.name with
        | none => none
        | some (parentName, _) =>
          match mapFind nodes2 parentName with
          | none => none
          | some parentNode =>
            some
              { nodes := nodes2
                edges := st.edges ++
                  [{ type := EdgeType.Contains, from_ := parentNode, to_ := cn,
                     imp := none, alias_ := none }]
                funcParamTypes := fptMap }
      | none =>
        some
          { nodes := nodes2
            edges := st.edges ++
              [{ type := EdgeType.Contains, from_ := ctx.fileNode, to_ := cn,
                 imp := none, alias_ := none }]
            funcParamTypes := fptMap }

/-- Processing of one query match of the Go adapter
(the `while let Some(mat) = matches.next()` body of `Parser::parse`). -/
def goStep (ctx : Ctx) (st : St) (m : QueryMatch) : Option St :=
  match QueryPattern.from_repr m.patternIndex with
  | none => some st
  | some QueryPattern.Import =>
    some { st with edges := st.edges ++
        m.captures.filterMap (fun c =>
          if c.name = "reference.import.path" then
            goImportEdgeOfPath ctx (captureText ctx.source c)
          else none) }
  | some QueryPattern.Interface =>
    match parse_simple "definition.interface" NodeType.Interface ctx m.captures with
    | some n =>
      some { st with
        nodes := mapInsert st.nodes n.name n
        edges := st.edges ++
          [{ type := EdgeType.Contains, from_ := ctx.fileNode, to_ := n,
             imp := none, alias_ := none }] }
    | none => some st
  | some QueryPattern.Class =>
    match parse_simple "definition.class" NodeType.Class ctx m.captures with
    | some n =>
      some { st with
        nodes := mapInsert st.nodes n.name n
        edges := st.edges ++
          [{ type := EdgeType.Contains, from_ := ctx.fileNode, to_ := n,
             imp := none, alias_ := none }] }
    | none => some st
  | some QueryPattern.Function =>
    goFnFinish ctx st
      (goFnCaptureFold ctx st.nodes "definition.function"
        "definition.function.first_return_type" m.captures)
  | some QueryPattern.Method =>
    goFnFinish ctx st
      (goFnCaptureFold ctx st.nodes "definition.method"
        "definition.method.receiver_type" m.captures)

/-- The whole match loop of `Parser::parse`, starting from the empty
accumulators. -/
def goParseMatches (ctx : Ctx) (ms : List QueryMatch) : Option St :=
  ms.foldlM (goStep ctx) St.empty

end GoParser

/-! ## Python adapter (`src/parser/python.rs`) -/

namespace PyParser

structure Ctx where
  source : List Char
  repoRelFile : String
  fileNode : Node

structure St where
  nodes : NodeMap
  edges : List Edge
  curClass : Option Capture
deriving Repr

/-- One step of the capture loop of the Python `Parser::parse`
(src/parser/python.rs).  Note the `+ 1` on both line numbers. -/
def pyStep (ctx : Ctx) (st : St) (c : Capture) : St :=
  if c.name = "definition.class.name" then
    match st.curClass with
    | some classCap =>
      let node : Node :=
        { name := ctx.repoRelFile ++ ":" ++ captureText ctx.source c
          type := NodeType.Class
          language := ctx.fileNode.language
          start_line := classCap.startRow + 1
          end_line := classCap.endRow + 1
          code := captureText ctx.source classCap
          skeleton_code := "" }
      { st with
        nodes := mapInsert st.nodes node.name node
        edges := st.edges ++
          [{ type := EdgeType.Contains, from_ := ctx.fileNode, to_ := node,
             imp := none, alias_ := none }] }
    | none => st
  else if c.name = "definition.class" then
    { st with curClass := some c }
  else st

/-- The whole capture loop of the Python `Parser::parse`, returning the
`(nodes, edges)` pair. -/
def pythonParseCaptures (ctx : Ctx) (cs : List Capture) : NodeMap × List Edge :=
  let st := cs.foldl (pyStep ctx) { nodes := [], edges := [], curClass := none }
  (st.nodes, st.edges)

end PyParser

/-! ## TypeScript adapter (`src/parser/typescript.rs`) -/

namespace TsParser

/-- Filesystem oracle for the probing done while resolving relative import
specifiers (`is_dir`, `exists`, `canonicalize` are filesystem calls). -/
structure FS where
  isDir : String → Bool
  pathExists : String → Bool
  canonicalize : String → Option String

/-- Ambient data of one TypeScript `Parser::parse` call.  `extractTypes`
stands for `extract_ts_types` with `exclude_builtin = true`, whose regex
engine is an external collaborator (the `regex` crate). -/
structure Ctx where
  source : List Char
  repoPath : String
  filePath : String
  fileNode : Node
  fs : FS
  extractTypes : String → List String

/-- Rust `file.path.parent()` on the relative file paths used here. -/
def parentPathOf (p : String) : String :=
  match rsplitOnce '/' p with
  | some (d, _) => d
  | none => ""

/-- Rust `PathBuf::with_extension` on the relative paths used here:
replace (or add) the extension of the final path component; a path whose
final component has no file name (empty, `.` or `..`) is returned
unchanged, mirroring `set_extension` returning `false`. -/
def withExtension (p ext : String) : String :=
  let fname := afterLastSep (fun c => c = '/') p
  if fname = "" ∨ fname = "." ∨ fname = ".." then p
  else
    let stem :=
      match rsplitOnce '.' fname with
      | some (pre2, _) => if pre2 = "" then fname else pre2
      | none => fname
    let dir :=
      match rsplitOnce '/' p with
      | some (d, _) => d ++ "/"
      | none => ""
    dir ++ stem ++ "." ++ ext

/-- Rust `Path::strip_prefix` on the `/`-separated relative paths used
here. -/
def pathStrip (pre p : String) : Option String :=
  if pre = "" then some p
  else if p = pre then some ""
  else stripPrefixOpt (pre ++ "/") p

/-- The tail of the `reference.import.source` handler: canonicalize (keep
the path on failure) and make the result repo-relative
(src/parser/typescript.rs). -/
def relativizeImportPath (fs : FS) (repoPath p : String) : String :=
  let canon := (fs.canonicalize p).getD p
  (pathStrip repoPath canon).getD canon

/-- The `reference.import.source` capture handler
(src/parser/typescript.rs): resolve a relative import specifier against
the importing file's directory, probing `index.d.ts` / `index.ts` /
`index.js` inside a directory and the `.ts` / `.js` extensions otherwise.
Returns `none` for non-relative specifiers (which leave `source_path`
untouched). -/
def resolveImportSource (fs : FS) (repoPath fileDir specText : String) :
    Option String :=
  if startsWithStr specText "./" ∨ startsWithStr specText "../" then
    let p0 := pathJoin fileDir specText
    let probed :=
      if fs.isDir p0 then
        let dts := pathJoin p0 "index.d.ts"
        let ts := pathJoin p0 "index.ts"
        let js := pathJoin p0 "index.js"
        if fs.pathExists dts then dts
        else if fs.pathExists ts then ts
        else if fs.pathExists js then js
        else p0
      else
        let ts := withExtension p0 "ts"
        let js := withExtension p0 "js"
        if fs.pathExists ts then ts
        else if fs.pathExists js then js
        else p0
    some (relativizeImportPath fs repoPath probed)
  else none

/-- A capture whose position data is irrelevant: only the name and the
text are used (import captures). -/
structure TextCapture where
  name : String
  text : String
deriving DecidableEq, Repr

/-- One capture of the `QueryPattern::Import` capture loop
(src/parser/typescript.rs). -/
def tsImportCaptureStep (ctx : Ctx) (imp : PendingImport) (c : TextCapture) :
    PendingImport :=
  if c.name = "reference.namespace_import.alias" then
    { imp with alias_ := some c.text }
  else if c.name = "reference.named_import.name" then
    { imp with symbol := some c.text }
  else if c.name = "reference.named_import.alias" then
    { imp with alias_ := some c.text }
  else if c.name = "reference.default_import.alias" then
    { imp with symbol := some "export default", alias_ := some c.text }
  else if c.name = "reference.import.source" then
    match resolveImportSource ctx.fs ctx.repoPath (parentPathOf ctx.filePath) c.text with
    | some sp => { imp with source_path := sp }
    | none => imp
  else imp

/-- The whole capture loop of one `Import` match, starting from the empty
`PendingImport`. -/
def tsProcessImportMatch (ctx : Ctx) (cs : List TextCapture) : PendingImport :=
  cs.foldl (tsImportCaptureStep ctx)
    { language := Language.TypeScript, source_path := "", symbol := none, alias_ := none }

/-- `HashMap<String, String>::insert` (association-list model). -/
def strMapInsert (m : List (String × String)) (k v : String) :
    List (String × String) :=
  if m.any (fun p => p.1 = k) then
    m.map (fun p => if p.1 = k then (k, v) else p)
  else m ++ [(k, v)]

def strMapFind (m : List (String × String)) (k : String) : Option String :=
  (m.find? (fun p => p.1 = k)).map Prod.snd

/-- What happens right after the `Import` capture loop: a pending import
with a non-empty `source_path` is pushed and registered in
`import_name_to_source_path` under `import_name()`; the `unreachable!()`
inside `import_name` is modelled as `none`. -/
def tsAfterImportMatch (pending : List PendingImport)
    (importMap : List (String × String)) (imp : PendingImport) :
    Option (List PendingImport × List (String × String)) :=
  if imp.source_path = "" then some (pending, importMap)
  else
    match imp.import_name with
    | none => none
    | some k => some (pending ++ [imp], strMapInsert importMap k imp.source_path)

/-- Fold state of the `Class` capture loop. -/
structure ClsFold where
  current : Option Node
  mainCap : Option Capture
deriving Repr

/-- One capture of the `QueryPattern::Class` capture loop
(src/parser/typescript.rs). -/
def tsClassCaptureStep (ctx : Ctx) (st : ClsFold) (c : Capture) : ClsFold :=
  if c.name = "definition.class" then
    { current := some
        { name := ""
          type := NodeType.Class
          language := ctx.fileNode.language
          start_line := c.startRow
          end_line := c.endRow
          code := captureText ctx.source c
          skeleton_code := "" }
      mainCap := some c }
  else if c.name = "definition.class.name" then
    { st with current :=
        st.current.map (fun n => { n with name := ctx.fileNode.name ++ ":" ++ captureText ctx.source c }) }
  else if c.name = "definition.class.body" then
    match st.mainCap, st.current with
    | some mc, some n =>
      let skel := sliceStr ctx.source mc.startByte c.startByte ++ "\x7b ... \x7d"
      { st with current := some { n with skeleton_code := skel } }
    | _, _ => st
  else st

def tsClassCaptureFold (ctx : Ctx) (cs : List Capture) : ClsFold :=
  cs.foldl (tsClassCaptureStep ctx) { current := none, mainCap := none }

/-- Adapter state of the TypeScript `Parser::parse` accumulators used by
the definition patterns. -/
structure St where
  nodes : NodeMap
  edges : List Edge
  funcParamTypes : List (String × List FuncParamType)
deriving Repr

def St.empty : St := { nodes := [], edges := [], funcParamTypes := [] }

/-- Post-capture-loop processing of a `Class` match: unconditional insert
plus `Contains` edge (src/parser/typescript.rs). -/
def tsClassFinish (ctx : Ctx) (st : St) (cf : ClsFold) : St :=
  match cf.current with
  | none => st
  | some cn =>
    { st with
      nodes := mapInsert st.nodes cn.name cn
      edges := st.edges ++
        [{ type := EdgeType.Contains, from_ := ctx.fileNode, to_ := cn,
           imp := none, alias_ := none }] }

/-- `Parser::parse_func_param_types` (src/parser/typescript.rs), with the
regex-driven `extract_ts_types` supplied by the context. -/
def parse_func_param_types (ctx : Ctx) (from_node_name param_type_name : String)
    (importMap : List (String × String)) : List FuncParamType :=
  (ctx.extractTypes param_type_name).map fun ptn =>
    let pt := GoParser.splitPkgType ptn
    let source_node_name : Option String :=
      match pt.1 with
      | some m => strMapFind importMap m
      | none =>
        match strMapFind importMap pt.2 with
        | some sp => some sp
        | none => some ((from_node_name.toList.takeWhile (fun c => c ≠ ':')).asString)
    { type_name := pt.2, package_name := source_node_name }

/-- Fold state of the `Function` capture loop. -/
structure FnFold where
  current : Option Node
  mainCap : Option Capture
  paramTypes : List String
deriving Repr

/-- One capture of the `QueryPattern::Function` capture loop
(src/parser/typescript.rs). -/
def tsFnCaptureStep (ctx : Ctx) (st : FnFold) (c : Capture) : FnFold :=
  if c.name = "definition.function" then
    { current := some
        { name := ""
          type := NodeType.Function
          language := ctx.fileNode.language
          start_line := c.startRow
          end_line := c.endRow
          code := captureText ctx.source c
          skeleton_code := "" }
      mainCap := some c
      paramTypes := st.paramTypes }
  else if c.name = "definition.function.name" then
    { st with current :=
        st.current.map (fun n => { n with name := ctx.fileNode.name ++ ":" ++ captureText ctx.source c }) }
  else if c.name = "definition.function.param_type" then
    { st with paramTypes := st.paramTypes ++ [captureText ctx.source c] }
  else if c.name = "definition.function.body" then
    match st.mainCap, st.current with
    | some mc, some n =>
      let skel := sliceStr ctx.source mc.startByte c.startByte ++ "\x7b ... \x7d"
      { st with current := some { n with skeleton_code := skel } }
    | _, _ => st
  else st

def tsFnCaptureFold (ctx : Ctx) (cs : List Capture) : FnFold :=
  cs.foldl (tsFnCaptureStep ctx) { current := none, mainCap := none, paramTypes := [] }

/-- Post-capture-loop processing of a `Function` match: parameter-type
records, then the deduplicated node insert plus `Contains` edge
(src/parser/typescript.rs). -/
def tsFnFinish (ctx : Ctx) (importMap : List (String × String)) (st : St)
    (ff : FnFold) : St :=
  match ff.current with
  | none => st
  | some cn =>
    let fpts := (ff.paramTypes.map
      (fun pt => parse_func_param_types ctx cn.name pt importMap)).flatten
    let fptMap := fptAddMany st.funcParamTypes cn.name fpts
    if mapContains st.nodes cn.name then { st with funcParamTypes := fptMap }
    else
      { nodes := mapInsert st.nodes cn.name cn
        edges := st.edges ++
          [{ type := EdgeType.Contains, from_ := ctx.fileNode, to_ := cn,
             imp := none, alias_ := none }]
        funcParamTypes := fptMap }

/-- A run of the adapter over a sequence of `Function` matches (each given
by its capture list). -/
def tsFunctionRun (ctx : Ctx) (importMap : List (String × String))
    (mss : List (List Capture)) : St :=
  mss.foldl (fun st cs => tsFnFinish ctx importMap st (tsFnCaptureFold ctx cs)) St.empty

/-- The target node name a pending import resolves to
(`resolve_pending_imports` body, src/parser/typescript.rs). -/
def importedNodeName (imp : PendingImport) : String :=
  match imp.symbol with
  | some s => imp.source_path ++ ":" ++ s
  | none => imp.source_path

/-- One iteration of the inner loop of `resolve_pending_imports`: emit the
`Imports` edge when both the owning file node and the target node are
present, drop the pending import silently otherwise. -/
def resolveImportStep (nodes : NodeMap) (file_node_name : String)
    (es : List Edge) (imp : PendingImport) : List Edge :=
  match mapFind nodes file_node_name, mapFind nodes (importedNodeName imp) with
  | some fileN, some impN =>
    es ++ [{ type := EdgeType.Imports, from_ := fileN, to_ := impN,
             imp := imp.symbol, alias_ := imp.alias_ }]
  | _, _ => es

/-- `Parser::resolve_pending_imports` (src/parser/typescript.rs).  The
`HashMap` iteration is modelled by the list order; the Rust function's
only exit is `Ok`. -/
def resolve_pending_imports (nodes : NodeMap)
    (pending : List (String × List PendingImport)) : Except String (List Edge) :=
  Except.ok
    (pending.foldl (fun es fi => fi.2.foldl (resolveImportStep nodes fi.1) es) [])

end TsParser

/-! ## Store facade (`src/db.rs`, `src/types.rs`) -/

namespace Store

/-- The JSON values that `to_dict` produces. -/
inductive JValue where
  | str (s : String)
  | num (n : Nat)
  | null
deriving DecidableEq, Repr

/-- `NodeType::to_string` (the strum serializations of src/types.rs;
`othertype` for the `OtherType` variant used by the current adapters). -/
def nodeTypeStr : NodeType → String
  | NodeType.Unparsed => "unparsed"
  | NodeType.Directory => "directory"
  | NodeType.File => "file"
  | NodeType.Interface => "interface"
  | NodeType.Class => "class"
  | NodeType.Function => "function"
  | NodeType.OtherType => "othertype"

/-- `Language::to_string` (strum default display). -/
def langStr : Language → String
  | Language.Text => "Text"
  | Language.Python => "Python"
  | Language.Go => "Go"
  | Language.TypeScript => "TypeScript"

/-- `Node::short_name` (src/types.rs): the lowercased trailing segment. -/
def shortName (n : Node) : String :=
  if !(containsChar n.name ':') then
    toLowerStr (afterLastSep (fun c => c = '/') n.name)
  else
    let attr := afterLastSep (fun c => c = ':') n.name
    if !(containsChar attr '.') then toLowerStr attr
    else toLowerStr (afterLastSep (fun c => c = '.') attr)

/-- `Node::to_dict` (src/types.rs): ordered key/value map; `Unparsed` and
`Directory` carry no span fields, `File` no line numbers.  `OtherType` is
treated like the other definition node types. -/
def nodeToDict (n : Node) : List (String × JValue) :=
  [("name", JValue.str n.name),
   ("type", JValue.str (nodeTypeStr n.type)),
   ("short_name", JValue.str (shortName n))] ++
  (match n.type with
   | NodeType.Unparsed | NodeType.Directory => []
   | NodeType.File =>
     [("language", JValue.str (langStr n.language)),
      ("code", JValue.str n.code),
      ("skeleton_code", JValue.str n.skeleton_code)]
   | _ =>
     [("language", JValue.str (langStr n.language)),
      ("code", JValue.str n.code),
      ("skeleton_code", JValue.str n.skeleton_code),
      ("start_line", JValue.num n.start_line),
      ("end_line", JValue.num n.end_line)])

/-- `Edge::from_to` (src/types.rs). -/
def fromTo (e : Edge) : String :=
  nodeTypeStr e.from_.type ++ "_" ++ nodeTypeStr e.to_.type

/-- `Edge::to_dict` (src/types.rs). -/
def edgeToDict (e : Edge) : List (String × JValue) :=
  [("from", JValue.str e.from_.name),
   ("to", JValue.str e.to_.name),
   ("type", JValue.str (fromTo e))] ++
  (match e.type with
   | EdgeType.Imports =>
     [("import", match e.imp with | some i => JValue.str i | none => JValue.null),
      ("alias", match e.alias_ with | some a => JValue.str a | none => JValue.null)]
   | _ => [])

/-- One field of a node CSV record (`Database::write_nodes_to_csv`,
src/db.rs): the empty string is replaced by the `"."` sentinel exactly for
the `name` field. -/
def csvNodeField (field : String) (v : JValue) : String :=
  match v with
  | JValue.str s => if field = "name" ∧ s = "" then "." else s
  | JValue.num n => toString n
  | JValue.null => ""

/-- The CSV record staged for one node by the CSV bulk path (field order
is the `to_dict` key order, which is also the header of the group's
file). -/
def write_node_csv_record (n : Node) : List String :=
  (nodeToDict n).map (fun kv => csvNodeField kv.1 kv.2)

/-- One field of a relationship CSV record
(`Database::write_relationships_to_csv`, src/db.rs): the sentinel applies
exactly to the `from` and `to` fields. -/
def csvRelField (field : String) (v : JValue) : String :=
  match v with
  | JValue.str s => if (field = "from" ∨ field = "to") ∧ s = "" then "." else s
  | JValue.num n => toString n
  | JValue.null => ""

/-- The CSV record staged for one relationship by the CSV bulk path. -/
def write_rel_csv_record (e : Edge) : List String :=
  (edgeToDict e).map (fun kv => csvRelField kv.1 kv.2)

/-- The record staged for one node by the JSON bulk path
(`Database::write_nodes_to_json`, src/db.rs, used by
`Database::bulk_insert_nodes`): `to_dict` serialized unchanged. -/
def jsonNodeRecord (n : Node) : List (String × JValue) := nodeToDict n

/-- The record staged for one relationship by the JSON bulk path
(`Database::write_relationships_to_json`, src/db.rs, used by
`Database::bulk_insert_relationships`). -/
def jsonRelRecord (e : Edge) : List (String × JValue) := edgeToDict e

/-- Rust `char::is_ascii_punctuation`. -/
def isAsciiPunct (c : Char) : Bool :=
  (33 ≤ c.toNat ∧ c.toNat ≤ 47) ∨ (58 ≤ c.toNat ∧ c.toNat ≤ 64) ∨
  (91 ≤ c.toNat ∧ c.toNat ≤ 96) ∨ (123 ≤ c.toNat ∧ c.toNat ≤ 126)

/-- `to_title_case` (src/db.rs); ASCII case mapping suffices for the table
names it is applied to. -/
def to_title_case (s : String) : String :=
  (s.toList.foldl
    (fun (acc : List Char × Bool) c =>
      if c.isWhitespace ∨ isAsciiPunct c then (acc.1 ++ [c], true)
      else if acc.2 then (acc.1 ++ [c.toUpper], false)
      else (acc.1 ++ [c.toLower], acc.2))
    ([], true)).1.asString

/-- Lowercase hex digit. -/
def hexDigit (n : Nat) : Char :=
  if n < 10 then Char.ofNat (48 + n) else Char.ofNat (87 + n)

/-- `string_repr` (src/db.rs).  Note that the Rust code pushes `'\n'`,
`'\r'` and `'\t'` back unescaped. -/
def string_repr (s : String) : String :=
  "\"" ++
  (s.toList.map fun c =>
    if c = '"' then "\\\""
    else if c = '\\' then "\\\\"
    else if c = '\n' then "\n"
    else if c = '\r' then "\r"
    else if c = '\t' then "\t"
    else if c = Char.ofNat 0 then "\\0"
    else if c = Char.ofNat 8 then "\\b"
    else if c = Char.ofNat 12 then "\\f"
    else if c.toNat < 32 ∨ c.toNat = 127 then
      "\\x" ++ String.mk [hexDigit (c.toNat / 16), hexDigit (c.toNat % 16)]
    else String.mk [c]).foldl (fun a b => a ++ b) "" ++ "\""

/-- `Database::to_set_data` (src/db.rs): the primary key is skipped. -/
def to_set_data (tag pk : String) (m : List (String × JValue)) : String :=
  intercalateStr ", "
    ((m.filter (fun kv => kv.1 ≠ pk)).map fun kv =>
      tag ++ "." ++ kv.1 ++ " = " ++
      (match kv.2 with
       | JValue.str s => string_repr s
       | JValue.num n => toString n
       | JValue.null => "null"))

/-- The MERGE query issued per node by `Database::upsert_nodes`
(src/db.rs): the node name is spliced into the query verbatim. -/
def upsert_node_query (n : Node) : String :=
  let table := to_title_case (nodeTypeStr n.type)
  let setData := to_set_data "n" "name" (nodeToDict n)
  "\nMERGE (n:" ++ table ++ " \x7b name: \"" ++ n.name ++ "\" \x7d)\nON CREATE SET " ++
    setData ++ "\nON MATCH SET " ++ setData ++ "\n"

end Store

/-! ## Observation helpers used in the statements below -/

/-- The number of `Contains` edges in `es` whose target node is named `nm`. -/
def countContains (es : List Edge) (nm : String) : Nat :=
  (es.filter (fun e => e.type = EdgeType.Contains ∧ e.to_.name = nm)).length

/-! ## Fixtures for the concrete witnesses -/

/-- Trivial filesystem oracle (nothing exists, canonicalization fails). -/
def emptyFS : TsParser.FS :=
  { isDir := fun _ => false, pathExists := fun _ => false, canonicalize := fun _ => none }

/-- A filesystem oracle for the probing witness: `src/types` is a
directory that contains `index.ts` (but no `index.d.ts`). -/
def witnessFS : TsParser.FS :=
  { isDir := fun p => p = "src/./types"
    pathExists := fun p => p = "src/./types/index.ts"
    canonicalize := fun _ => none }

/-- Modelled from the spec: the `Import` query pattern of
`src/parser/queries/typescript-definitions.scm` (a file of this repository
that is not among the sources) matches exactly the four import statement
forms of the spec, each of which binds, besides the
`reference.import.source` capture, at least one of
`reference.default_import.alias`, `reference.named_import.name` or
`reference.namespace_import.alias`. -/
def WellFormedImportMatch (cs : List TsParser.TextCapture) : Prop :=
  (∃ t, TsParser.TextCapture.mk "reference.default_import.alias" t ∈ cs) ∨
  (∃ t, TsParser.TextCapture.mk "reference.named_import.name" t ∈ cs) ∨
  (∃ t, TsParser.TextCapture.mk "reference.namespace_import.alias" t ∈ cs)

/-- Context used by concrete TypeScript witnesses. -/
def witnessTsCtx : TsParser.Ctx :=
  { source := [], repoPath := "", filePath := "main.ts"
    fileNode := Node.from_type_and_name NodeType.File "main.ts"
    fs := emptyFS, extractTypes := fun _ => [] }

/-! ## Lemmas about the map model -/

/-! ## Basic lemmas about the map model -/

theorem mapContains_iff (m : NodeMap) (k : String) :
    mapContains m k = true ↔ ∃ p ∈ m, p.1 = k := by
  simp [mapContains, List.any_eq_true]

theorem mapFind_mapInsert (m : NodeMap) (k k2 : String) (v : Node) :
    mapFind (mapInsert m k v) k2 = if k2 = k then some v else mapFind m k2 := by
  induction m with
  | nil =>
    by_cases hk2 : k2 = k
    · simp [mapInsert, mapFind, List.find?, hk2]
    · have hk2' : ¬(k = k2) := fun h => hk2 h.symm
      simp [mapInsert, mapFind, List.find?, hk2, decide_eq_false hk2']
  | cons p rest ih =>
    unfold mapInsert
    by_cases hp : p.1 = k
    · rw [if_pos hp]
      by_cases hk2 : k2 = k
      · subst hk2
        simp [mapFind, List.find?, hp]
      · have hk2' : ¬(k = k2) := fun h => hk2 h.symm
        have hp2 : ¬(p.1 = k2) := by rw [hp]; exact hk2'
        simp [mapFind, List.find?_cons, hk2, decide_eq_false hk2', decide_eq_false hp2]
    · rw [if_neg hp]
      by_cases hpk2 : p.1 = k2
      · have hne : ¬(k2 = k) := fun h => hp (by rw [hpk2, h])
        simp [mapFind, List.find?_cons, hpk2, hne]
      · simp only [mapFind, List.find?_cons, decide_eq_false hpk2] at ih ⊢
        simpa [mapFind] using ih

theorem mapContains_mapInsert (m : NodeMap) (k k2 : String) (v : Node) :
    mapContains (mapInsert m k v) k2 = (decide (k2 = k) || mapContains m k2) := by
  induction m with
  | nil =>
    by_cases hk2 : k2 = k
    · simp [mapInsert, mapContains, hk2]
    · have hk2' : ¬(k = k2) := fun h => hk2 h.symm
      simp [mapInsert, mapContains, hk2, decide_eq_false hk2']
  | cons p rest ih =>
    unfold mapInsert
    by_cases hp : p.1 = k
    · rw [if_pos hp]
      by_cases hk2 : k2 = k
      · subst hk2
        simp [mapContains, List.any_cons, hp]
      · have hk2' : ¬(k = k2) := fun h => hk2 h.symm
        simp [mapContains, List.any_cons, hp, decide_eq_false hk2, decide_eq_false hk2']
    · rw [if_neg hp]
      simp only [mapContains, List.any_cons] at ih ⊢
      rw [ih]
      cases h1 : decide (p.1 = k2) <;> cases h2 : decide (k2 = k) <;> simp

theorem mapContains_eq_isSome_mapFind (m : NodeMap) (k : String) :
    mapContains m k = (mapFind m k).isSome := by
  induction m with
  | nil => simp [mapContains, mapFind]
  | cons p rest ih =>
    by_cases hp : p.1 = k
    · simp [mapContains, mapFind, List.find?_cons, hp]
    · simp only [mapContains, mapFind, List.any_cons, List.find?_cons,
        decide_eq_false hp, Bool.false_or] at ih ⊢
      simpa [mapFind] using ih

/-! ## Skeleton computation (C3) -/

theorem toList_asString (l : List Char) : (List.asString l).toList = l := rfl

/-- A shorter slice of the source is a prefix of a longer one. -/
theorem sliceStr_take (s : List Char) (a b e : Nat) (hbe : b ≤ e) :
    sliceStr s a b = ((sliceStr s a e).toList.take (b - a)).asString := by
  unfold sliceStr
  rw [toList_asString, List.take_take, Nat.min_eq_left (Nat.sub_le_sub_right hbe a)]

/-- A capture that is neither the main capture nor the body capture leaves
the `(code, skeleton_code)` projection of `current` and the main capture
unchanged. -/
theorem goFnStep_pres (ctx : GoParser.Ctx) (nodes : NodeMap) (mn rn : String)
    (st : GoParser.FnFold) (c : Capture)
    (h1 : c.name ≠ mn) (h2 : c.name ≠ mn ++ ".body") :
    ((GoParser.goFnCaptureStep ctx nodes mn rn st c).current.map
        (fun n => (n.code, n.skeleton_code)) =
      st.current.map (fun n => (n.code, n.skeleton_code))) ∧
    (GoParser.goFnCaptureStep ctx nodes mn rn st c).mainCap = st.mainCap := by
  unfold GoParser.goFnCaptureStep
  rw [if_neg h1]
  by_cases h3 : c.name = mn ++ ".name"
  · rw [if_pos h3]
    cases st.current <;> simp
  · rw [if_neg h3]
    by_cases h4 : c.name = rn
    · rw [if_pos h4]
      by_cases h5 : mapContains nodes (ctx.repoRelFile ++ ":" ++ captureText ctx.source c) = true
      · rw [if_pos h5]
        exact ⟨rfl, rfl⟩
      · rw [if_neg h5]
        exact ⟨rfl, rfl⟩
    · rw [if_neg h4]
      by_cases h5 : c.name = mn ++ ".param_type"
      · rw [if_pos h5]
        exact ⟨rfl, rfl⟩
      · rw [if_neg h5, if_neg h2]
        exact ⟨rfl, rfl⟩

theorem goFnFold_mid_pres (ctx : GoParser.Ctx) (nodes : NodeMap) (mn rn : String)
    (cs : List Capture)
    (hmid : ∀ c ∈ cs, c.name ≠ mn ∧ c.name ≠ mn ++ ".body") :
    ∀ st : GoParser.FnFold,
      ((cs.foldl (GoParser.goFnCaptureStep ctx nodes mn rn) st).current.map
          (fun n => (n.code, n.skeleton_code)) =
        st.current.map (fun n => (n.code, n.skeleton_code))) ∧
      (cs.foldl (GoParser.goFnCaptureStep ctx nodes mn rn) st).mainCap = st.mainCap := by
  induction cs with
  | nil => intro st; exact ⟨rfl, rfl⟩
  | cons c rest ih =>
    intro st
    have hc := hmid c (by simp)
    have hrest : ∀ c2 ∈ rest, c2.name ≠ mn ∧ c2.name ≠ mn ++ ".body" := by
      intro c2 hc2
      exact hmid c2 (by simp [hc2])
    have hstep := goFnStep_pres ctx nodes mn rn st c hc.1 hc.2
    have hih := ih hrest (GoParser.goFnCaptureStep ctx nodes mn rn st c)
    simp only [List.foldl_cons]
    exact ⟨hih.1.trans hstep.1, hih.2.trans hstep.2⟩

/-- The capture fold of a function/method match of the shape
main-capture, middle captures, body-capture produces a node whose code is
the main capture's slice and whose skeleton is the slice up to the body
start plus the Go marker. -/
theorem goFnFold_skeleton (ctx : GoParser.Ctx) (nodes : NodeMap) (mn rn : String)
    (mainC bodyC : Capture) (mid : List Capture)
    (hm : mainC.name = mn) (hb : bodyC.name = mn ++ ".body")
    (hmb : mn ++ ".body" ≠ mn)
    (hbn : mn ++ ".body" ≠ mn ++ ".name")
    (hbr : mn ++ ".body" ≠ rn)
    (hbp : mn ++ ".body" ≠ mn ++ ".param_type")
    (hmid : ∀ c ∈ mid, c.name ≠ mn ∧ c.name ≠ mn ++ ".body") :
    ∃ n, (GoParser.goFnCaptureFold ctx nodes mn rn (mainC :: mid ++ [bodyC])).current = some n ∧
      n.code = sliceStr ctx.source mainC.startByte mainC.endByte ∧
      n.skeleton_code =
        sliceStr ctx.source mainC.startByte bodyC.startByte ++ "\x7b\n...\n\x7d" := by
  unfold GoParser.goFnCaptureFold
  rw [show (mainC :: mid ++ [bodyC]) = (mainC :: mid) ++ [bodyC] by simp,
    List.foldl_append]
  simp only [List.foldl_cons]
  set st1 := GoParser.goFnCaptureStep ctx nodes mn rn GoParser.FnFold.init mainC with hst1
  have hst1c : st1.current = some
      { name := "", type := NodeType.Function, language := ctx.fileNode.language,
        start_line := mainC.startRow, end_line := mainC.endRow,
        code := captureText ctx.source mainC, skeleton_code := "" } ∧
      st1.mainCap = some mainC := by
    rw [hst1]
    unfold GoParser.goFnCaptureStep
    rw [if_pos hm]
    exact ⟨rfl, rfl⟩
  have hmidp := goFnFold_mid_pres ctx nodes mn rn mid hmid st1
  set st2 := mid.foldl (GoParser.goFnCaptureStep ctx nodes mn rn) st1 with hst2
  have hmc2 : st2.mainCap = some mainC := hmidp.2.trans hst1c.2
  have hproj : st2.current.map (fun n => (n.code, n.skeleton_code)) =
      some (captureText ctx.source mainC, "") := by
    rw [hmidp.1, hst1c.1]
    rfl
  cases hcur : st2.current with
  | none => rw [hcur] at hproj; simp at hproj
  | some n2 =>
    rw [hcur] at hproj
    have hcode : n2.code = captureText ctx.source mainC := by
      have := congrArg (fun o => o.map Prod.fst) hproj
      simpa using this
    simp only [List.foldl_cons, List.foldl_nil]
    unfold GoParser.goFnCaptureStep
    rw [if_neg (hb ▸ hmb), if_neg (hb ▸ hbn), if_neg (hb ▸ hbr), if_neg (hb ▸ hbp),
      if_pos hb]
    rw [hmc2, hcur]
    refine ⟨_, rfl, ?_, rfl⟩
    exact hcode

/-- `goFnFinish` only inserts the (possibly renamed) current node: a newly
present node keeps the code and skeleton of the capture fold's node. -/
theorem goFnFinish_new_node (ctx : GoParser.Ctx) (st : GoParser.St) (ff : GoParser.FnFold)
    (st2 : GoParser.St) (nm : String) (n2 : Node)
    (hfin : GoParser.goFnFinish ctx st ff = some st2)
    (hnew : mapFind st2.nodes nm = some n2) (hold : mapFind st.nodes nm = none) :
    ∃ cn0, ff.current = some cn0 ∧ n2.code = cn0.code ∧
      n2.skeleton_code = cn0.skeleton_code := by
  obtain ⟨cur, mainCap, parentStruct, paramTypes⟩ := ff
  cases cur with
  | none =>
    unfold GoParser.goFnFinish at hfin
    dsimp only at hfin
    rw [Option.some.injEq] at hfin
    rw [← hfin] at hnew
    rw [hold] at hnew
    cases hnew
  | some cn0 =>
    refine ⟨cn0, rfl, ?_⟩
    cases parentStruct with
    | none =>
      unfold GoParser.goFnFinish at hfin
      dsimp only at hfin
      by_cases hcont : mapContains st.nodes cn0.name
      · rw [if_pos hcont] at hfin
        rw [Option.some.injEq] at hfin
        rw [← hfin] at hnew
        rw [hold] at hnew
        cases hnew
      · rw [if_neg hcont] at hfin
        rw [Option.some.injEq] at hfin
        rw [← hfin] at hnew
        dsimp only at hnew
        rw [mapFind_mapInsert] at hnew
        by_cases hnm : nm = cn0.name
        · rw [if_pos hnm] at hnew
          rw [Option.some.injEq] at hnew
          rw [← hnew]
          exact ⟨rfl, rfl⟩
        · rw [if_neg hnm] at hnew
          rw [hold] at hnew
          cases hnew
    | some ps =>
      unfold GoParser.goFnFinish at hfin
      dsimp only at hfin
      by_cases hcont :
          mapContains st.nodes (GoParser.reparentedName ctx ps cn0.name)
      · rw [if_pos hcont] at hfin
        rw [Option.some.injEq] at hfin
        rw [← hfin] at hnew
        rw [hold] at hnew
        cases hnew
      · rw [if_neg hcont] at hfin
        cases hsp : rsplitOnce '.' (GoParser.reparentedName ctx ps cn0.name) with
        | none =>
          rw [hsp] at hfin
          cases hfin
        | some pr =>
          obtain ⟨pn, rest⟩ := pr
          rw [hsp] at hfin
          dsimp only at hfin
          cases hpar : mapFind
              (mapInsert st.nodes (GoParser.reparentedName ctx ps cn0.name)
                { cn0 with name := GoParser.reparentedName ctx ps cn0.name }) pn with
          | none =>
            rw [hpar] at hfin
            cases hfin
          | some parentNode =>
            rw [hpar] at hfin
            rw [Option.some.injEq] at hfin
            rw [← hfin] at hnew
            dsimp only at hnew
            rw [mapFind_mapInsert] at hnew
            by_cases hnm : nm = GoParser.reparentedName ctx ps cn0.name
            · rw [if_pos hnm] at hnew
              rw [Option.some.injEq] at hnew
              rw [← hnew]
              exact ⟨rfl, rfl⟩
            · rw [if_neg hnm] at hnew
              rw [hold] at hnew
              cases hnew

/-- TypeScript `Class` analogue of `goFnStep_pres`. -/
theorem tsClassStep_pres (ctx : TsParser.Ctx) (st : TsParser.ClsFold) (c : Capture)
    (h1 : c.name ≠ "definition.class") (h2 : c.name ≠ "definition.class.body") :
    ((TsParser.tsClassCaptureStep ctx st c).current.map
        (fun n => (n.code, n.skeleton_code)) =
      st.current.map (fun n => (n.code, n.skeleton_code))) ∧
    (TsParser.tsClassCaptureStep ctx st c).mainCap = st.mainCap := by
  unfold TsParser.tsClassCaptureStep
  rw [if_neg h1]
  by_cases h3 : c.name = "definition.class.name"
  · rw [if_pos h3]
    cases st.current <;> simp
  · rw [if_neg h3, if_neg h2]
    exact ⟨rfl, rfl⟩

theorem tsClassFold_mid_pres (ctx : TsParser.Ctx) (cs : List Capture)
    (hmid : ∀ c ∈ cs, c.name ≠ "definition.class" ∧ c.name ≠ "definition.class.body") :
    ∀ st : TsParser.ClsFold,
      ((cs.foldl (TsParser.tsClassCaptureStep ctx) st).current.map
          (fun n => (n.code, n.skeleton_code)) =
        st.current.map (fun n => (n.code, n.skeleton_code))) ∧
      (cs.foldl (TsParser.tsClassCaptureStep ctx) st).mainCap = st.mainCap := by
  induction cs with
  | nil => intro st; exact ⟨rfl, rfl⟩
  | cons c rest ih =>
    intro st
    have hc := hmid c (by simp)
    have hrest : ∀ c2 ∈ rest,
        c2.name ≠ "definition.class" ∧ c2.name ≠ "definition.class.body" := by
      intro c2 hc2
      exact hmid c2 (by simp [hc2])
    have hstep := tsClassStep_pres ctx st c hc.1 hc.2
    have hih := ih hrest (TsParser.tsClassCaptureStep ctx st c)
    simp only [List.foldl_cons]
    exact ⟨hih.1.trans hstep.1, hih.2.trans hstep.2⟩

theorem tsClassFold_skeleton (ctx : TsParser.Ctx) (mainC bodyC : Capture)
    (mid : List Capture)
    (hm : mainC.name = "definition.class") (hb : bodyC.name = "definition.class.body")
    (hmid : ∀ c ∈ mid, c.name ≠ "definition.class" ∧ c.name ≠ "definition.class.body") :
    ∃ n, (TsParser.tsClassCaptureFold ctx (mainC :: mid ++ [bodyC])).current = some n ∧
      n.code = sliceStr ctx.source mainC.startByte mainC.endByte ∧
      n.skeleton_code =
        sliceStr ctx.source mainC.startByte bodyC.startByte ++ "\x7b ... \x7d" := by
  unfold TsParser.tsClassCaptureFold
  rw [show (mainC :: mid ++ [bodyC]) = (mainC :: mid) ++ [bodyC] by simp,
    List.foldl_append]
  simp only [List.foldl_cons]
  set st1 := TsParser.tsClassCaptureStep ctx { current := none, mainCap := none } mainC
    with hst1
  have hst1c : st1.current = some
      { name := "", type := NodeType.Class, language := ctx.fileNode.language,
        start_line := mainC.startRow, end_line := mainC.endRow,
        code := captureText ctx.source mainC, skeleton_code := "" } ∧
      st1.mainCap = some mainC := by
    rw [hst1]
    unfold TsParser.tsClassCaptureStep
    rw [if_pos hm]
    exact ⟨rfl, rfl⟩
  have hmidp := tsClassFold_mid_pres ctx mid hmid st1
  set st2 := mid.foldl (TsParser.tsClassCaptureStep ctx) st1 with hst2
  have hmc2 : st2.mainCap = some mainC := hmidp.2.trans hst1c.2
  have hproj : st2.current.map (fun n => (n.code, n.skeleton_code)) =
      some (captureText ctx.source mainC, "") := by
    rw [hmidp.1, hst1c.1]
    rfl
  cases hcur : st2.current with
  | none => rw [hcur] at hproj; simp at hproj
  | some n2 =>
    rw [hcur] at hproj
    have hcode : n2.code = captureText ctx.source mainC := by
      have := congrArg (fun o => o.map Prod.fst) hproj
      simpa using this
    simp only [List.foldl_cons, List.foldl_nil]
    unfold TsParser.tsClassCaptureStep
    rw [if_neg (hb ▸ (by decide : ("definition.class.body" : String) ≠ "definition.class")),
      if_neg (hb ▸ (by decide : ("definition.class.body" : String) ≠ "definition.class.name")),
      if_pos hb]
    rw [hmc2, hcur]
    refine ⟨_, rfl, ?_, rfl⟩
    exact hcode

/-- `tsClassFinish` only inserts the current node. -/
theorem tsClassFinish_new_node (ctx : TsParser.Ctx) (st : TsParser.St)
    (cf : TsParser.ClsFold) (nm : String) (n2 : Node)
    (hnew : mapFind (TsParser.tsClassFinish ctx st cf).nodes nm = some n2)
    (hold : mapFind st.nodes nm = none) :
    ∃ cn0, cf.current = some cn0 ∧ n2.code = cn0.code ∧
      n2.skeleton_code = cn0.skeleton_code := by
  unfold TsParser.tsClassFinish at hnew
  cases hc : cf.current with
  | none =>
    rw [hc] at hnew
    dsimp only at hnew
    rw [hold] at hnew
    cases hnew
  | some cn0 =>
    rw [hc] at hnew
    dsimp only at hnew
    rw [mapFind_mapInsert] at hnew
    refine ⟨cn0, rfl, ?_⟩
    by_cases hnm : nm = cn0.name
    · rw [if_pos hnm] at hnew
      rw [Option.some.injEq] at hnew
      rw [← hnew]
      exact ⟨rfl, rfl⟩
    · rw [if_neg hnm] at hnew
      rw [hold] at hnew
      cases hnew

/-- TypeScript `Function` analogue of `goFnStep_pres`. -/
theorem tsFnStep_pres (ctx : TsParser.Ctx) (st : TsParser.FnFold) (c : Capture)
    (h1 : c.name ≠ "definition.function") (h2 : c.name ≠ "definition.function.body") :
    ((TsParser.tsFnCaptureStep ctx st c).current.map
        (fun n => (n.code, n.skeleton_code)) =
      st.current.map (fun n => (n.code, n.skeleton_code))) ∧
    (TsParser.tsFnCaptureStep ctx st c).mainCap = st.mainCap := by
  unfold TsParser.tsFnCaptureStep
  rw [if_neg h1]
  by_cases h3 : c.name = "definition.function.name"
  · rw [if_pos h3]
    cases st.current <;> simp
  · rw [if_neg h3]
    by_cases h4 : c.name = "definition.function.param_type"
    · rw [if_pos h4]
      exact ⟨rfl, rfl⟩
    · rw [if_neg h4, if_neg h2]
      exact ⟨rfl, rfl⟩

theorem tsFnFold_mid_pres (ctx : TsParser.Ctx) (cs : List Capture)
    (hmid : ∀ c ∈ cs,
      c.name ≠ "definition.function" ∧ c.name ≠ "definition.function.body") :
    ∀ st : TsParser.FnFold,
      ((cs.foldl (TsParser.tsFnCaptureStep ctx) st).current.map
          (fun n => (n.code, n.skeleton_code)) =
        st.current.map (fun n => (n.code, n.skeleton_code))) ∧
      (cs.foldl (TsParser.tsFnCaptureStep ctx) st).mainCap = st.mainCap := by
  induction cs with
  | nil => intro st; exact ⟨rfl, rfl⟩
  | cons c rest ih =>
    intro st
    have hc := hmid c (by simp)
    have hrest : ∀ c2 ∈ rest,
        c2.name ≠ "definition.function" ∧ c2.name ≠ "definition.function.body" := by
      intro c2 hc2
      exact hmid c2 (by simp [hc2])
    have hstep := tsFnStep_pres ctx st c hc.1 hc.2
    have hih := ih hrest (TsParser.tsFnCaptureStep ctx st c)
    simp only [List.foldl_cons]
    exact ⟨hih.1.trans hstep.1, hih.2.trans hstep.2⟩

theorem tsFnFold_skeleton (ctx : TsParser.Ctx) (mainC bodyC : Capture)
    (mid : List Capture)
    (hm : mainC.name = "definition.function")
    (hb : bodyC.name = "definition.function.body")
    (hmid : ∀ c ∈ mid,
      c.name ≠ "definition.function" ∧ c.name ≠ "definition.function.body") :
    ∃ n, (TsParser.tsFnCaptureFold ctx (mainC :: mid ++ [bodyC])).current = some n ∧
      n.code = sliceStr ctx.source mainC.startByte mainC.endByte ∧
      n.skeleton_code =
        sliceStr ctx.source mainC.startByte bodyC.startByte ++ "\x7b ... \x7d" := by
  unfold TsParser.tsFnCaptureFold
  rw [show (mainC :: mid ++ [bodyC]) = (mainC :: mid) ++ [bodyC] by simp,
    List.foldl_append]
  simp only [List.foldl_cons]
  set st1 := TsParser.tsFnCaptureStep ctx
    { current := none, mainCap := none, paramTypes := [] } mainC with hst1
  have hst1c : st1.current = some
      { name := "", type := NodeType.Function, language := ctx.fileNode.language,
        start_line := mainC.startRow, end_line := mainC.endRow,
        code := captureText ctx.source mainC, skeleton_code := "" } ∧
      st1.mainCap = some mainC := by
    rw [hst1]
    unfold TsParser.tsFnCaptureStep
    rw [if_pos hm]
    exact ⟨rfl, rfl⟩
  have hmidp := tsFnFold_mid_pres ctx mid hmid st1
  set st2 := mid.foldl (TsParser.tsFnCaptureStep ctx) st1 with hst2
  have hmc2 : st2.mainCap = some mainC := hmidp.2.trans hst1c.2
  have hproj : st2.current.map (fun n => (n.code, n.skeleton_code)) =
      some (captureText ctx.source mainC, "") := by
    rw [hmidp.1, hst1c.1]
    rfl
  cases hcur : st2.current with
  | none => rw [hcur] at hproj; simp at hproj
  | some n2 =>
    rw [hcur] at hproj
    have hcode : n2.code = captureText ctx.source mainC := by
      have := congrArg (fun o => o.map Prod.fst) hproj
      simpa using this
    simp only [List.foldl_cons, List.foldl_nil]
    unfold TsParser.tsFnCaptureStep
    rw [if_neg (hb ▸
        (by decide : ("definition.function.body" : String) ≠ "definition.function")),
      if_neg (hb ▸
        (by decide : ("definition.function.body" : String) ≠ "definition.function.name")),
      if_neg (hb ▸
        (by decide : ("definition.function.body" : String) ≠ "definition.function.param_type")),
      if_pos hb]
    rw [hmc2, hcur]
    refine ⟨_, rfl, ?_, rfl⟩
    exact hcode

/-- `tsFnFinish` only inserts the current node. -/
theorem tsFnFinish_new_node (ctx : TsParser.Ctx) (importMap : List (String × String))
    (st : TsParser.St) (ff : TsParser.FnFold) (nm : String) (n2 : Node)
    (hnew : mapFind (TsParser.tsFnFinish ctx importMap st ff).nodes nm = some n2)
    (hold : mapFind st.nodes nm = none) :
    ∃ cn0, ff.current = some cn0 ∧ n2.code = cn0.code ∧
      n2.skeleton_code = cn0.skeleton_code := by
  unfold TsParser.tsFnFinish at hnew
  cases hc : ff.current with
  | none =>
    rw [hc] at hnew
    dsimp only at hnew
    rw [hold] at hnew
    cases hnew
  | some cn0 =>
    rw [hc] at hnew
    dsimp only at hnew
    refine ⟨cn0, rfl, ?_⟩
    by_cases hcont : mapContains st.nodes cn0.name
    · rw [if_pos hcont] at hnew
      rw [hold] at hnew
      cases hnew
    · rw [if_neg hcont] at hnew
      dsimp only at hnew
      rw [mapFind_mapInsert] at hnew
      by_cases hnm : nm = cn0.name
      · rw [if_pos hnm] at hnew
        rw [Option.some.injEq] at hnew
        rw [← hnew]
        exact ⟨rfl, rfl⟩
      · rw [if_neg hnm] at hnew
        rw [hold] at hnew
        cases hnew

/-- C3: for Go functions and methods and TypeScript classes and functions
with a body capture, the produced node's `skeleton_code` is the prefix of
its `code` up to the byte where the body begins, followed by the
language's abbreviated-body marker, and the node finally stored by the
post-loop processing keeps these fields. -/
theorem claim_C3_skeleton_marker :
    (∀ (ctx : GoParser.Ctx) (nodes : NodeMap) (mn rn : String)
        (mainC bodyC : Capture) (mid : List Capture),
      ((mn = "definition.function" ∧ rn = "definition.function.first_return_type") ∨
        (mn = "definition.method" ∧ rn = "definition.method.receiver_type")) →
      mainC.name = mn → bodyC.name = mn ++ ".body" →
      (∀ c ∈ mid, c.name ≠ mn ∧ c.name ≠ mn ++ ".body") →
      bodyC.startByte ≤ mainC.endByte →
      ∃ n, (GoParser.goFnCaptureFold ctx nodes mn rn
              (mainC :: mid ++ [bodyC])).current = some n ∧
        n.code = sliceStr ctx.source mainC.startByte mainC.endByte ∧
        n.skeleton_code =
          (n.code.toList.take (bodyC.startByte - mainC.startByte)).asString ++
            "\x7b\n...\n\x7d" ∧
        (∀ st st2 nm n2,
          GoParser.goFnFinish ctx st
              (GoParser.goFnCaptureFold ctx nodes mn rn (mainC :: mid ++ [bodyC])) =
            some st2 →
          mapFind st2.nodes nm = some n2 → mapFind st.nodes nm = none →
          n2.code = n.code ∧ n2.skeleton_code = n.skeleton_code)) ∧
    (∀ (ctx : TsParser.Ctx) (mainC bodyC : Capture) (mid : List Capture),
      mainC.name = "definition.class" → bodyC.name = "definition.class.body" →
      (∀ c ∈ mid, c.name ≠ "definition.class" ∧ c.name ≠ "definition.class.body") →
      bodyC.startByte ≤ mainC.endByte →
      ∃ n, (TsParser.tsClassCaptureFold ctx (mainC :: mid ++ [bodyC])).current = some n ∧
        n.code = sliceStr ctx.source mainC.startByte mainC.endByte ∧
        n.skeleton_code =
          (n.code.toList.take (bodyC.startByte - mainC.startByte)).asString ++
            "\x7b ... \x7d" ∧
        (∀ st nm n2,
          mapFind (TsParser.tsClassFinish ctx st
              (TsParser.tsClassCaptureFold ctx (mainC :: mid ++ [bodyC]))).nodes nm =
            some n2 →
          mapFind st.nodes nm = none →
          n2.code = n.code ∧ n2.skeleton_code = n.skeleton_code)) ∧
    (∀ (ctx : TsParser.Ctx) (mainC bodyC : Capture) (mid : List Capture),
      mainC.name = "definition.function" → bodyC.name = "definition.function.body" →
      (∀ c ∈ mid,
        c.name ≠ "definition.function" ∧ c.name ≠ "definition.function.body") →
      bodyC.startByte ≤ mainC.endByte →
      ∃ n, (TsParser.tsFnCaptureFold ctx (mainC :: mid ++ [bodyC])).current = some n ∧
        n.code = sliceStr ctx.source mainC.startByte mainC.endByte ∧
        n.skeleton_code =
          (n.code.toList.take (bodyC.startByte - mainC.startByte)).asString ++
            "\x7b ... \x7d" ∧
        (∀ importMap st nm n2,
          mapFind (TsParser.tsFnFinish ctx importMap st
              (TsParser.tsFnCaptureFold ctx (mainC :: mid ++ [bodyC]))).nodes nm =
            some n2 →
          mapFind st.nodes nm = none →
          n2.code = n.code ∧ n2.skeleton_code = n.skeleton_code)) := by
  refine ⟨?_, ?_, ?_⟩
  · intro ctx nodes mn rn mainC bodyC mid harm hm hb hmid hbe
    have hdis : mn ++ ".body" ≠ mn ∧ mn ++ ".body" ≠ mn ++ ".name" ∧
        mn ++ ".body" ≠ rn ∧ mn ++ ".body" ≠ mn ++ ".param_type" := by
      rcases harm with ⟨h1, h2⟩ | ⟨h1, h2⟩ <;> subst h1 <;> subst h2 <;>
        exact ⟨by decide, by decide, by decide, by decide⟩
    obtain ⟨n, hn, hcode, hskel⟩ :=
      goFnFold_skeleton ctx nodes mn rn mainC bodyC mid hm hb
        hdis.1 hdis.2.1 hdis.2.2.1 hdis.2.2.2 hmid
    refine ⟨n, hn, hcode, ?_, ?_⟩
    · rw [hskel, hcode, ← sliceStr_take ctx.source mainC.startByte bodyC.startByte
        mainC.endByte hbe]
    · intro st st2 nm n2 hfin hnew hold
      obtain ⟨cn0, hcn0, hc2, hs2⟩ :=
        goFnFinish_new_node ctx st _ st2 nm n2 hfin hnew hold
      rw [hn] at hcn0
      rw [Option.some.injEq] at hcn0
      rw [← hcn0] at hc2 hs2
      exact ⟨hc2, hs2⟩
  · intro ctx mainC bodyC mid hm hb hmid hbe
    obtain ⟨n, hn, hcode, hskel⟩ := tsClassFold_skeleton ctx mainC bodyC mid hm hb hmid
    refine ⟨n, hn, hcode, ?_, ?_⟩
    · rw [hskel, hcode, ← sliceStr_take ctx.source mainC.startByte bodyC.startByte
        mainC.endByte hbe]
    · intro st nm n2 hnew hold
      obtain ⟨cn0, hcn0, hc2, hs2⟩ := tsClassFinish_new_node ctx st _ nm n2 hnew hold
      rw [hn] at hcn0
      rw [Option.some.injEq] at hcn0
      rw [← hcn0] at hc2 hs2
      exact ⟨hc2, hs2⟩
  · intro ctx mainC bodyC mid hm hb hmid hbe
    obtain ⟨n, hn, hcode, hskel⟩ := tsFnFold_skeleton ctx mainC bodyC mid hm hb hmid
    refine ⟨n, hn, hcode, ?_, ?_⟩
    · rw [hskel, hcode, ← sliceStr_take ctx.source mainC.startByte bodyC.startByte
        mainC.endByte hbe]
    · intro importMap st nm n2 hnew hold
      obtain ⟨cn0, hcn0, hc2, hs2⟩ :=
        tsFnFinish_new_node ctx importMap st _ nm n2 hnew hold
      rw [hn] at hcn0
      rw [Option.some.injEq] at hcn0
      rw [← hcn0] at hc2 hs2
      exact ⟨hc2, hs2⟩

theorem claim_C3_skeleton_marker_witness :
    ((GoParser.goFnCaptureFold
        { source := "func f() \x7b\x7d".toList, repoRelFile := "a.go",
          fileNode := Node.from_type_and_name NodeType.File "a.go",
          goModulePath := none }
        [] "definition.function" "definition.function.first_return_type"
        ({ name := "definition.function", startRow := 0, endRow := 0,
           startByte := 0, endByte := 11 } ::
          [{ name := "definition.function.name", startRow := 0, endRow := 0,
             startByte := 5, endByte := 6 }] ++
          [{ name := "definition.function.body", startRow := 0, endRow := 0,
             startByte := 9, endByte := 11 }])).current.map
      (fun n => (n.code, n.skeleton_code))) =
      some ("func f() \x7b\x7d", "func f() \x7b\n...\n\x7d") := by
  obtain ⟨n, hn, hcode, hskel, -⟩ :=
    claim_C3_skeleton_marker.1
      { source := "func f() \x7b\x7d".toList, repoRelFile := "a.go",
        fileNode := Node.from_type_and_name NodeType.File "a.go",
        goModulePath := none }
      [] "definition.function" "definition.function.first_return_type"
      { name := "definition.function", startRow := 0, endRow := 0,
        startByte := 0, endByte := 11 }
      { name := "definition.function.body", startRow := 0, endRow := 0,
        startByte := 9, endByte := 11 }
      [{ name := "definition.function.name", startRow := 0, endRow := 0,
         startByte := 5, endByte := 6 }]
      (Or.inl ⟨rfl, rfl⟩) rfl rfl (by decide) (by decide)
  rw [hn]
  show some (n.code, n.skeleton_code) = _
  rw [hskel, hcode]
  decide

/-! ## Contains-edge deduplication (C1) -/

theorem countContains_append (es : List Edge) (e : Edge) (nm : String) :
    countContains (es ++ [e]) nm =
      countContains es nm +
        (if e.type = EdgeType.Contains ∧ e.to_.name = nm then 1 else 0) := by
  unfold countContains
  rw [List.filter_append]
  by_cases h : e.type = EdgeType.Contains ∧ e.to_.name = nm
  · simp [h]
  · simp [h]

/-- Appending a `Contains` edge targeting `tn` adds one to the count of
`tn.name` and leaves other counts unchanged. -/
theorem countContains_append_contains (es : List Edge) (fn tn : Node)
    (i a : Option String) (nm : String) :
    countContains
        (es ++ [{ type := EdgeType.Contains, from_ := fn, to_ := tn,
                  imp := i, alias_ := a }]) nm =
      countContains es nm + (if tn.name = nm then 1 else 0) := by
  rw [countContains_append]
  by_cases h : tn.name = nm
  · simp [h]
  · simp [h]

/-- `goFnFinish` preserves the one-`Contains`-edge-per-stored-name
invariant: the edge is pushed exactly when the node is newly inserted. -/
theorem goFnFinish_count (ctx : GoParser.Ctx) (st : GoParser.St) (ff : GoParser.FnFold)
    (st2 : GoParser.St)
    (hfin : GoParser.goFnFinish ctx st ff = some st2)
    (hinv : ∀ nm, countContains st.edges nm =
      if mapContains st.nodes nm then 1 else 0) :
    ∀ nm, countContains st2.edges nm =
      if mapContains st2.nodes nm then 1 else 0 := by
  intro nm
  obtain ⟨cur, mainCap, parentStruct, paramTypes⟩ := ff
  cases cur with
  | none =>
    unfold GoParser.goFnFinish at hfin
    dsimp only at hfin
    rw [Option.some.injEq] at hfin
    rw [← hfin]
    exact hinv nm
  | some cn0 =>
    cases parentStruct with
    | none =>
      unfold GoParser.goFnFinish at hfin
      dsimp only at hfin
      by_cases hcont : mapContains st.nodes cn0.name
      · rw [if_pos hcont] at hfin
        rw [Option.some.injEq] at hfin
        rw [← hfin]
        exact hinv nm
      · rw [if_neg hcont] at hfin
        rw [Option.some.injEq] at hfin
        rw [← hfin]
        dsimp only
        rw [countContains_append_contains, mapContains_mapInsert]
        by_cases hnm : nm = cn0.name
        · subst hnm
          rw [hinv _, if_neg hcont]
          simp
        · have hnm' : ¬(cn0.name = nm) := fun h => hnm h.symm
          rw [if_neg hnm']
          simp [decide_eq_false hnm, hinv nm]
      | some ps =>
        unfold GoParser.goFnFinish at hfin
        dsimp only at hfin
        by_cases hcont :
            mapContains st.nodes (GoParser.reparentedName ctx ps cn0.name)
        · rw [if_pos hcont] at hfin
          rw [Option.some.injEq] at hfin
          rw [← hfin]
          exact hinv nm
        · rw [if_neg hcont] at hfin
          cases hsp : rsplitOnce '.' (GoParser.reparentedName ctx ps cn0.name) with
          | none =>
            rw [hsp] at hfin
            cases hfin
          | some pr =>
            obtain ⟨pn, rest⟩ := pr
            rw [hsp] at hfin
            dsimp only at hfin
            cases hpar : mapFind
                (mapInsert st.nodes (GoParser.reparentedName ctx ps cn0.name)
                  { cn0 with name := GoParser.reparentedName ctx ps cn0.name }) pn with
            | none =>
              rw [hpar] at hfin
              cases hfin
            | some parentNode =>
              rw [hpar] at hfin
              rw [Option.some.injEq] at hfin
              rw [← hfin]
              dsimp only
              rw [countContains_append_contains, mapContains_mapInsert]
              by_cases hnm : nm = GoParser.reparentedName ctx ps cn0.name
              · subst hnm
                rw [hinv _, if_neg hcont]
                simp
              · have hnm' : ¬(GoParser.reparentedName ctx ps cn0.name = nm) :=
                  fun h => hnm h.symm
                rw [if_neg hnm']
                simp [decide_eq_false hnm, hinv nm]

/-- The invariant along a run of `Function`/`Method` matches. -/
theorem goRun_count (ctx : GoParser.Ctx) :
    ∀ (ms : List QueryMatch) (st : GoParser.St),
      (∀ m ∈ ms,
        GoParser.QueryPattern.from_repr m.patternIndex =
            some GoParser.QueryPattern.Function ∨
          GoParser.QueryPattern.from_repr m.patternIndex =
            some GoParser.QueryPattern.Method) →
      (∀ nm, countContains st.edges nm =
        if mapContains st.nodes nm then 1 else 0) →
      ∀ st2, ms.foldlM (GoParser.goStep ctx) st = some st2 →
      ∀ nm, countContains st2.edges nm =
        if mapContains st2.nodes nm then 1 else 0 := by
  intro ms
  induction ms with
  | nil =>
    intro st hp hinv st2 hrun nm
    simp only [List.foldlM_nil, Option.pure_def, Option.some.injEq] at hrun
    rw [← hrun]
    exact hinv nm
  | cons m rest ih =>
    intro st hp hinv st2 hrun nm
    rw [List.foldlM_cons] at hrun
    cases hstep : GoParser.goStep ctx st m with
    | none =>
      rw [hstep] at hrun
      simp at hrun
    | some st1 =>
      rw [hstep] at hrun
      replace hrun : rest.foldlM (GoParser.goStep ctx) st1 = some st2 := hrun
      have hm := hp m (by simp)
      have hinv1 : ∀ nm2, countContains st1.edges nm2 =
          if mapContains st1.nodes nm2 then 1 else 0 := by
        rcases hm with hF | hM
        · unfold GoParser.goStep at hstep
          rw [hF] at hstep
          exact goFnFinish_count ctx st _ st1 hstep hinv
        · unfold GoParser.goStep at hstep
          rw [hM] at hstep
          exact goFnFinish_count ctx st _ st1 hstep hinv
      exact ih st1 (fun m2 hm2 => hp m2 (by simp [hm2])) hinv1 st2 hrun nm

/-- `tsFnFinish` preserves the invariant (TypeScript `Function` dedup). -/
theorem tsFnFinish_count (ctx : TsParser.Ctx) (importMap : List (String × String))
    (st : TsParser.St) (ff : TsParser.FnFold)
    (hinv : ∀ nm, countContains st.edges nm =
      if mapContains st.nodes nm then 1 else 0) :
    ∀ nm, countContains (TsParser.tsFnFinish ctx importMap st ff).edges nm =
      if mapContains (TsParser.tsFnFinish ctx importMap st ff).nodes nm then 1 else 0 := by
  intro nm
  unfold TsParser.tsFnFinish
  cases hc : ff.current with
  | none => exact hinv nm
  | some cn0 =>
    dsimp only
    by_cases hcont : mapContains st.nodes cn0.name
    · rw [if_pos hcont]
      exact hinv nm
    · rw [if_neg hcont]
      dsimp only
      rw [countContains_append_contains, mapContains_mapInsert]
      by_cases hnm : nm = cn0.name
      · subst hnm
        rw [hinv _, if_neg hcont]
        simp
      · have hnm' : ¬(cn0.name = nm) := fun h => hnm h.symm
        rw [if_neg hnm']
        simp [decide_eq_false hnm, hinv nm]

theorem tsRun_count (ctx : TsParser.Ctx) (importMap : List (String × String)) :
    ∀ (mss : List (List Capture)) (st : TsParser.St),
      (∀ nm, countContains st.edges nm =
        if mapContains st.nodes nm then 1 else 0) →
      ∀ nm, countContains
          (mss.foldl (fun s cs =>
            TsParser.tsFnFinish ctx importMap s (TsParser.tsFnCaptureFold ctx cs)) st).edges
          nm =
        if mapContains
            (mss.foldl (fun s cs =>
              TsParser.tsFnFinish ctx importMap s (TsParser.tsFnCaptureFold ctx cs)) st).nodes
            nm
        then 1 else 0 := by
  intro mss
  induction mss with
  | nil => intro st hinv nm; exact hinv nm
  | cons cs rest ih =>
    intro st hinv nm
    simp only [List.foldl_cons]
    exact ih (TsParser.tsFnFinish ctx importMap st (TsParser.tsFnCaptureFold ctx cs))
      (tsFnFinish_count ctx importMap st _ hinv) nm

/-- Every `Contains` edge pushed by `tsFnFinish` starts at the file node. -/
theorem tsFnFinish_from (ctx : TsParser.Ctx) (importMap : List (String × String))
    (st : TsParser.St) (ff : TsParser.FnFold)
    (hinv : ∀ e ∈ st.edges, e.type = EdgeType.Contains → e.from_ = ctx.fileNode) :
    ∀ e ∈ (TsParser.tsFnFinish ctx importMap st ff).edges,
      e.type = EdgeType.Contains → e.from_ = ctx.fileNode := by
  unfold TsParser.tsFnFinish
  cases hc : ff.current with
  | none => exact hinv
  | some cn0 =>
    dsimp only
    by_cases hcont : mapContains st.nodes cn0.name
    · rw [if_pos hcont]
      exact hinv
    · rw [if_neg hcont]
      dsimp only
      intro e he htype
      rcases List.mem_append.mp he with hin | hin
      · exact hinv e hin htype
      · rw [List.mem_singleton] at hin
        rw [hin]

theorem tsRun_from (ctx : TsParser.Ctx) (importMap : List (String × String)) :
    ∀ (mss : List (List Capture)) (st : TsParser.St),
      (∀ e ∈ st.edges, e.type = EdgeType.Contains → e.from_ = ctx.fileNode) →
      ∀ e ∈ (mss.foldl (fun s cs =>
          TsParser.tsFnFinish ctx importMap s (TsParser.tsFnCaptureFold ctx cs)) st).edges,
        e.type = EdgeType.Contains → e.from_ = ctx.fileNode := by
  intro mss
  induction mss with
  | nil => intro st hinv; exact hinv
  | cons cs rest ih =>
    intro st hinv
    simp only [List.foldl_cons]
    exact ih (TsParser.tsFnFinish ctx importMap st (TsParser.tsFnCaptureFold ctx cs))
      (tsFnFinish_from ctx importMap st _ hinv)

/-- C1: along the Go `Function`/`Method` match loop and the TypeScript
`Function` match loop, the accumulated edge list holds exactly one
`Contains` edge targeting each stored definition name (and none for names
not stored); duplicate matches are absorbed by the node-map membership
check, and every TypeScript `Function` `Contains` edge starts at the file
node. -/
theorem claim_C1_contains_dedup :
    (∀ (ctx : GoParser.Ctx) (ms : List QueryMatch) (st2 : GoParser.St),
      (∀ m ∈ ms,
        GoParser.QueryPattern.from_repr m.patternIndex =
            some GoParser.QueryPattern.Function ∨
          GoParser.QueryPattern.from_repr m.patternIndex =
            some GoParser.QueryPattern.Method) →
      GoParser.goParseMatches ctx ms = some st2 →
      ∀ nm, countContains st2.edges nm =
        if mapContains st2.nodes nm then 1 else 0) ∧
    (∀ (ctx : TsParser.Ctx) (importMap : List (String × String))
        (mss : List (List Capture)),
      (∀ nm, countContains (TsParser.tsFunctionRun ctx importMap mss).edges nm =
        if mapContains (TsParser.tsFunctionRun ctx importMap mss).nodes nm
        then 1 else 0) ∧
      (∀ e ∈ (TsParser.tsFunctionRun ctx importMap mss).edges,
        e.type = EdgeType.Contains → e.from_ = ctx.fileNode)) := by
  constructor
  · intro ctx ms st2 hp hrun nm
    exact goRun_count ctx ms GoParser.St.empty hp
      (by intro nm2; simp [countContains, mapContains, GoParser.St.empty]) st2 hrun nm
  · intro ctx importMap mss
    constructor
    · intro nm
      exact tsRun_count ctx importMap mss TsParser.St.empty
        (by intro nm2; simp [countContains, mapContains, TsParser.St.empty]) nm
    · exact tsRun_from ctx importMap mss TsParser.St.empty
        (by intro e he; simp [TsParser.St.empty] at he)

theorem claim_C1_contains_dedup_witness :
    ((GoParser.goParseMatches
        { source := "func f() \x7b\x7d".toList, repoRelFile := "a.go",
          fileNode := Node.from_type_and_name NodeType.File "a.go",
          goModulePath := none }
        [{ patternIndex := 3, captures :=
            [{ name := "definition.function", startRow := 0, endRow := 0,
               startByte := 0, endByte := 11 },
             { name := "definition.function.name", startRow := 0, endRow := 0,
               startByte := 5, endByte := 6 },
             { name := "definition.function.body", startRow := 0, endRow := 0,
               startByte := 9, endByte := 11 }] },
         { patternIndex := 3, captures :=
            [{ name := "definition.function", startRow := 0, endRow := 0,
               startByte := 0, endByte := 11 },
             { name := "definition.function.name", startRow := 0, endRow := 0,
               startByte := 5, endByte := 6 },
             { name := "definition.function.body", startRow := 0, endRow := 0,
               startByte := 9, endByte := 11 }] }]).map
      (fun st => (countContains st.edges "a.go:f", mapContains st.nodes "a.go:f"))) =
      some (1, true) := by
  have hs : (GoParser.goParseMatches
      { source := "func f() \x7b\x7d".toList, repoRelFile := "a.go",
        fileNode := Node.from_type_and_name NodeType.File "a.go",
        goModulePath := none }
      [{ patternIndex := 3, captures :=
          [{ name := "definition.function", startRow := 0, endRow := 0,
             startByte := 0, endByte := 11 },
           { name := "definition.function.name", startRow := 0, endRow := 0,
             startByte := 5, endByte := 6 },
           { name := "definition.function.body", startRow := 0, endRow := 0,
             startByte := 9, endByte := 11 }] },
       { patternIndex := 3, captures :=
          [{ name := "definition.function", startRow := 0, endRow := 0,
             startByte := 0, endByte := 11 },
           { name := "definition.function.name", startRow := 0, endRow := 0,
             startByte := 5, endByte := 6 },
           { name := "definition.function.body", startRow := 0, endRow := 0,
             startByte := 9, endByte := 11 }] }]).isSome = true := by decide
  cases h : GoParser.goParseMatches
      { source := "func f() \x7b\x7d".toList, repoRelFile := "a.go",
        fileNode := Node.from_type_and_name NodeType.File "a.go",
        goModulePath := none }
      [{ patternIndex := 3, captures :=
          [{ name := "definition.function", startRow := 0, endRow := 0,
             startByte := 0, endByte := 11 },
           { name := "definition.function.name", startRow := 0, endRow := 0,
             startByte := 5, endByte := 6 },
           { name := "definition.function.body", startRow := 0, endRow := 0,
             startByte := 9, endByte := 11 }] },
       { patternIndex := 3, captures :=
          [{ name := "definition.function", startRow := 0, endRow := 0,
             startByte := 0, endByte := 11 },
           { name := "definition.function.name", startRow := 0, endRow := 0,
             startByte := 5, endByte := 6 },
           { name := "definition.function.body", startRow := 0, endRow := 0,
             startByte := 9, endByte := 11 }] }] with
  | none =>
    rw [h] at hs
    cases hs
  | some st =>
    have hcount := claim_C1_contains_dedup.1 _ _ st (by decide) h "a.go:f"
    have hmem : mapContains st.nodes "a.go:f" = true := by
      have h2 : (GoParser.goParseMatches
          { source := "func f() \x7b\x7d".toList, repoRelFile := "a.go",
            fileNode := Node.from_type_and_name NodeType.File "a.go",
            goModulePath := none }
          [{ patternIndex := 3, captures :=
              [{ name := "definition.function", startRow := 0, endRow := 0,
                 startByte := 0, endByte := 11 },
               { name := "definition.function.name", startRow := 0, endRow := 0,
                 startByte := 5, endByte := 6 },
               { name := "definition.function.body", startRow := 0, endRow := 0,
                 startByte := 9, endByte := 11 }] },
           { patternIndex := 3, captures :=
              [{ name := "definition.function", startRow := 0, endRow := 0,
                 startByte := 0, endByte := 11 },
               { name := "definition.function.name", startRow := 0, endRow := 0,
                 startByte := 5, endByte := 6 },
               { name := "definition.function.body", startRow := 0, endRow := 0,
                 startByte := 9, endByte := 11 }] }]).map
          (fun s => mapContains s.nodes "a.go:f") = some true := by decide
      rw [h] at h2
      simpa using h2
    show some (countContains st.edges "a.go:f", mapContains st.nodes "a.go:f") =
      some (1, true)
    rw [hcount, hmem, if_pos rfl]

/-! ## Line numbers, Go parameter owners, pending-import resolution (C2, C5, C6) -/

/-- C2: the Go adapter stores tree-sitter's 0-based row numbers unchanged
(a capture on row 0 yields `start_line = 0`), but the Python adapter adds 1
to both row numbers, so a class spanning rows 0..1 is stored with
`start_line = 1` and `end_line = 2` -- the Python adapter's line numbers
are 1-based, diverging from the documented 0-based convention. -/
theorem claim_C2_python_line_numbers_one_based :
    (mapFind (PyParser.pythonParseCaptures
        { source := "class A:\n  pass".toList, repoRelFile := "a.py",
          fileNode := Node.from_type_and_name NodeType.File "a.py" }
        [{ name := "definition.class", startRow := 0, endRow := 1, startByte := 0, endByte := 15 },
         { name := "definition.class.name", startRow := 0, endRow := 0, startByte := 6, endByte := 7 }]).1
        "a.py:A").map Node.start_line = some 1 ∧
    (mapFind (PyParser.pythonParseCaptures
        { source := "class A:\n  pass".toList, repoRelFile := "a.py",
          fileNode := Node.from_type_and_name NodeType.File "a.py" }
        [{ name := "definition.class", startRow := 0, endRow := 1, startByte := 0, endByte := 15 },
         { name := "definition.class.name", startRow := 0, endRow := 0, startByte := 6, endByte := 7 }]).1
        "a.py:A").map Node.end_line = some 2 ∧
    ((GoParser.parse_simple "definition.class" NodeType.Class
        { source := "type A struct ".toList, repoRelFile := "a.go",
          fileNode := Node.from_type_and_name NodeType.File "a.go", goModulePath := none }
        [{ name := "definition.class", startRow := 0, endRow := 1, startByte := 0, endByte := 14 },
         { name := "definition.class.name", startRow := 0, endRow := 0, startByte := 5, endByte := 6 }]).map
      Node.start_line = some 0) ∧
    (1 : Nat) ≠ 0 := by
  exact ⟨rfl, rfl, rfl, by decide⟩

/-- C5 (counterexample): for an unqualified Go parameter type owned by a
definition in a file at the repository root, `parse_func_param_type`
records the package name `"."`, not the empty string claimed. -/
theorem claim_C5_counterexample :
    (GoParser.parse_func_param_type "main.go:main" "Address" []).map FuncParamType.package_name
      = some (some ".") ∧ (some (some ".") : Option (Option String)) ≠ some (some "") := by
  exact ⟨by decide, by decide⟩

/-- C5 (amended): for a Go parameter type that is not a func/struct/interface
literal and whose bare type name is not a builtin, the owner package is
the import-edge target when the type is package-qualified, and otherwise the
owning file's parent directory, with `"."` substituted when that directory
is empty (repository root). -/
theorem claim_C5_amended (from_node_name param_type_name : String) (edges : List Edge)
    (h1 : ¬(startsWithStr param_type_name "func" = true ∨
            startsWithStr param_type_name "struct" = true ∨
            startsWithStr param_type_name "interface" = true))
    (h2 : is_go_builtin_type (GoParser.splitPkgType (GoParser.stripParamType param_type_name)).2
            = false) :
    GoParser.parse_func_param_type from_node_name param_type_name edges =
      some { type_name := (GoParser.splitPkgType (GoParser.stripParamType param_type_name)).2
             package_name :=
               match (GoParser.splitPkgType (GoParser.stripParamType param_type_name)).1 with
               | some pkg => GoParser.findImportTarget edges pkg
               | none =>
                 some (if beforeLastSlash from_node_name = "" then "."
                       else beforeLastSlash from_node_name) } := by
  unfold GoParser.parse_func_param_type
  rw [if_neg h1]
  simp only [h2, Bool.false_eq_true, if_false]

theorem claim_C5_amended_witness :
    GoParser.parse_func_param_type "main.go:f" "[]*foo.Foo"
        [{ type := EdgeType.Imports,
           from_ := Node.from_type_and_name NodeType.File "main.go",
           to_ := Node.from_type_and_name NodeType.Directory "pkg/foo",
           imp := some "foo", alias_ := none }] =
      some { type_name := "Foo", package_name := some "pkg/foo" } := by
  rw [claim_C5_amended _ _ _ (by decide) (by decide)]
  rfl

/-- C6: `resolve_pending_imports` always returns `Ok`; per pending import
the target node name is `source_path:symbol` when a symbol is present and
`source_path` alone otherwise, an `Imports` edge is pushed exactly when
both the owning file node and the target node are in the node map, and an
unresolved pending import is dropped silently. -/
theorem claim_C6_resolve_pending_imports (nodes : NodeMap)
    (pending : List (String × List PendingImport)) :
    TsParser.resolve_pending_imports nodes pending =
      Except.ok (pending.flatMap fun fi =>
        fi.2.filterMap fun imp =>
          let target :=
            match imp.symbol with
            | some s => imp.source_path ++ ":" ++ s
            | none => imp.source_path
          match mapFind nodes fi.1, mapFind nodes target with
          | some fileN, some impN =>
            some { type := EdgeType.Imports, from_ := fileN, to_ := impN,
                   imp := imp.symbol, alias_ := imp.alias_ }
          | _, _ => none) := by
  unfold TsParser.resolve_pending_imports
  congr 1
  have hinner : ∀ (fname : String) (imps : List PendingImport) (es : List Edge),
      imps.foldl (TsParser.resolveImportStep nodes fname) es =
        es ++ imps.filterMap (fun imp =>
          let target :=
            match imp.symbol with
            | some s => imp.source_path ++ ":" ++ s
            | none => imp.source_path
          match mapFind nodes fname, mapFind nodes target with
          | some fileN, some impN =>
            some { type := EdgeType.Imports, from_ := fileN, to_ := impN,
                   imp := imp.symbol, alias_ := imp.alias_ }
          | _, _ => none) := by
    intro fname imps
    induction imps with
    | nil => intro es; simp
    | cons imp rest ih =>
      intro es
      simp only [List.foldl_cons, List.filterMap_cons]
      rw [ih]
      show (TsParser.resolveImportStep nodes fname es imp) ++ _ = _
      unfold TsParser.resolveImportStep TsParser.importedNodeName
      cases himp : imp.symbol with
      | none =>
        cases h1 : mapFind nodes fname <;>
          cases h2 : mapFind nodes imp.source_path <;>
            simp [himp, h1, h2]
      | some s =>
        cases h1 : mapFind nodes fname <;>
          cases h2 : mapFind nodes (imp.source_path ++ ":" ++ s) <;>
            simp [himp, h1, h2]
  have houter : ∀ (ps : List (String × List PendingImport)) (es : List Edge),
      ps.foldl (fun es fi => fi.2.foldl (TsParser.resolveImportStep nodes fi.1) es) es =
        es ++ ps.flatMap (fun fi =>
          fi.2.filterMap fun imp =>
            let target :=
              match imp.symbol with
              | some s => imp.source_path ++ ":" ++ s
              | none => imp.source_path
            match mapFind nodes fi.1, mapFind nodes target with
            | some fileN, some impN =>
              some { type := EdgeType.Imports, from_ := fileN, to_ := impN,
                     imp := imp.symbol, alias_ := imp.alias_ }
            | _, _ => none) := by
    intro ps
    induction ps with
    | nil => intro es; simp
    | cons fi rest ih =>
      intro es
      simp only [List.foldl_cons, List.flatMap_cons]
      rw [hinner fi.1 fi.2 es, ih, List.append_assoc]
  simpa using houter pending []

/-! ## TypeScript import probing, import forms, panic freedom (C7, C8, C10) -/

/-- C7: for a relative TypeScript import specifier that resolves to a
directory, the adapter probes `index.d.ts`, then `index.ts`, then
`index.js` inside it, falling back to the directory path; for a
non-directory target it probes the path with extension `.ts`, then `.js`,
falling back to the joined path. -/
theorem claim_C7_ts_import_probing (fs : TsParser.FS) (repoPath fileDir specText : String)
    (hrel : startsWithStr specText "./" = true ∨ startsWithStr specText "../" = true) :
    (fs.isDir (pathJoin fileDir specText) = true →
      ((fs.pathExists (pathJoin (pathJoin fileDir specText) "index.d.ts") = true →
         TsParser.resolveImportSource fs repoPath fileDir specText =
           some (TsParser.relativizeImportPath fs repoPath
             (pathJoin (pathJoin fileDir specText) "index.d.ts"))) ∧
       (fs.pathExists (pathJoin (pathJoin fileDir specText) "index.d.ts") = false →
        fs.pathExists (pathJoin (pathJoin fileDir specText) "index.ts") = true →
         TsParser.resolveImportSource fs repoPath fileDir specText =
           some (TsParser.relativizeImportPath fs repoPath
             (pathJoin (pathJoin fileDir specText) "index.ts"))) ∧
       (fs.pathExists (pathJoin (pathJoin fileDir specText) "index.d.ts") = false →
        fs.pathExists (pathJoin (pathJoin fileDir specText) "index.ts") = false →
        fs.pathExists (pathJoin (pathJoin fileDir specText) "index.js") = true →
         TsParser.resolveImportSource fs repoPath fileDir specText =
           some (TsParser.relativizeImportPath fs repoPath
             (pathJoin (pathJoin fileDir specText) "index.js"))) ∧
       (fs.pathExists (pathJoin (pathJoin fileDir specText) "index.d.ts") = false →
        fs.pathExists (pathJoin (pathJoin fileDir specText) "index.ts") = false →
        fs.pathExists (pathJoin (pathJoin fileDir specText) "index.js") = false →
         TsParser.resolveImportSource fs repoPath fileDir specText =
           some (TsParser.relativizeImportPath fs repoPath (pathJoin fileDir specText))))) ∧
    (fs.isDir (pathJoin fileDir specText) = false →
      ((fs.pathExists (TsParser.withExtension (pathJoin fileDir specText) "ts") = true →
         TsParser.resolveImportSource fs repoPath fileDir specText =
           some (TsParser.relativizeImportPath fs repoPath
             (TsParser.withExtension (pathJoin fileDir specText) "ts"))) ∧
       (fs.pathExists (TsParser.withExtension (pathJoin fileDir specText) "ts") = false →
        fs.pathExists (TsParser.withExtension (pathJoin fileDir specText) "js") = true →
         TsParser.resolveImportSource fs repoPath fileDir specText =
           some (TsParser.relativizeImportPath fs repoPath
             (TsParser.withExtension (pathJoin fileDir specText) "js"))) ∧
       (fs.pathExists (TsParser.withExtension (pathJoin fileDir specText) "ts") = false →
        fs.pathExists (TsParser.withExtension (pathJoin fileDir specText) "js") = false →
         TsParser.resolveImportSource fs repoPath fileDir specText =
           some (TsParser.relativizeImportPath fs repoPath (pathJoin fileDir specText))))) := by
  unfold TsParser.resolveImportSource
  rw [if_pos hrel]
  constructor
  · intro hdir
    refine ⟨fun h1 => ?_, fun h1 h2 => ?_, fun h1 h2 h3 => ?_, fun h1 h2 h3 => ?_⟩
    · simp [hdir, h1]
    · simp [hdir, h1, h2]
    · simp [hdir, h1, h2, h3]
    · simp [hdir, h1, h2, h3]
  · intro hdir
    refine ⟨fun h1 => ?_, fun h1 h2 => ?_, fun h1 h2 => ?_⟩
    · simp [hdir, h1]
    · simp [hdir, h1, h2]
    · simp [hdir, h1, h2]

theorem claim_C7_witness :
    TsParser.resolveImportSource witnessFS "repo" "src" "./types" =
      some "src/./types/index.ts" := by
  have h := (claim_C7_ts_import_probing witnessFS "repo" "src" "./types"
      (Or.inl (by decide))).1 (by decide)
  have h2 := h.2.1 (by decide) (by decide)
  rw [h2]
  rfl

/-- C8: the four TypeScript import forms produce the documented pending
record: a default import records the symbol `"export default"` with the
local name as alias; a bare named import records the imported name as the
symbol with no alias; an aliased named import also records the alias; a
namespace import records no symbol and the local name as alias. -/
theorem claim_C8_ts_import_forms (ctx : TsParser.Ctx) (x y src : String) :
    ((TsParser.tsProcessImportMatch ctx
        [{ name := "reference.default_import.alias", text := x },
         { name := "reference.import.source", text := src }]).symbol = some "export default" ∧
     (TsParser.tsProcessImportMatch ctx
        [{ name := "reference.default_import.alias", text := x },
         { name := "reference.import.source", text := src }]).alias_ = some x) ∧
    ((TsParser.tsProcessImportMatch ctx
        [{ name := "reference.named_import.name", text := x },
         { name := "reference.import.source", text := src }]).symbol = some x ∧
     (TsParser.tsProcessImportMatch ctx
        [{ name := "reference.named_import.name", text := x },
         { name := "reference.import.source", text := src }]).alias_ = none) ∧
    ((TsParser.tsProcessImportMatch ctx
        [{ name := "reference.named_import.name", text := x },
         { name := "reference.named_import.alias", text := y },
         { name := "reference.import.source", text := src }]).symbol = some x ∧
     (TsParser.tsProcessImportMatch ctx
        [{ name := "reference.named_import.name", text := x },
         { name := "reference.named_import.alias", text := y },
         { name := "reference.import.source", text := src }]).alias_ = some y) ∧
    ((TsParser.tsProcessImportMatch ctx
        [{ name := "reference.namespace_import.alias", text := x },
         { name := "reference.import.source", text := src }]).symbol = none ∧
     (TsParser.tsProcessImportMatch ctx
        [{ name := "reference.namespace_import.alias", text := x },
         { name := "reference.import.source", text := src }]).alias_ = some x) := by
  cases h : TsParser.resolveImportSource ctx.fs ctx.repoPath
      (TsParser.parentPathOf ctx.filePath) src <;>
    simp [TsParser.tsProcessImportMatch, TsParser.tsImportCaptureStep, h]

theorem tsImportCaptureStep_mono (ctx : TsParser.Ctx) (imp : PendingImport)
    (c : TsParser.TextCapture)
    (h : imp.symbol.isSome = true ∨ imp.alias_.isSome = true) :
    (TsParser.tsImportCaptureStep ctx imp c).symbol.isSome = true ∨
    (TsParser.tsImportCaptureStep ctx imp c).alias_.isSome = true := by
  unfold TsParser.tsImportCaptureStep
  split_ifs <;>
    first
      | simp
      | (cases hr : TsParser.resolveImportSource ctx.fs ctx.repoPath
            (TsParser.parentPathOf ctx.filePath) c.text <;> simpa [hr] using h)

theorem tsImportCaptureStep_default (ctx : TsParser.Ctx) (imp : PendingImport) (t : String) :
    TsParser.tsImportCaptureStep ctx imp (TsParser.TextCapture.mk "reference.default_import.alias" t) =
      { imp with symbol := some "export default", alias_ := some t } := by
  simp [TsParser.tsImportCaptureStep]

theorem tsImportCaptureStep_named (ctx : TsParser.Ctx) (imp : PendingImport) (t : String) :
    TsParser.tsImportCaptureStep ctx imp (TsParser.TextCapture.mk "reference.named_import.name" t) =
      { imp with symbol := some t } := by
  simp [TsParser.tsImportCaptureStep]

theorem tsImportCaptureStep_namespace (ctx : TsParser.Ctx) (imp : PendingImport) (t : String) :
    TsParser.tsImportCaptureStep ctx imp
        (TsParser.TextCapture.mk "reference.namespace_import.alias" t) =
      { imp with alias_ := some t } := by
  simp [TsParser.tsImportCaptureStep]

theorem tsImportFold_sets (ctx : TsParser.Ctx) (cs : List TsParser.TextCapture) :
    ∀ imp : PendingImport,
      (imp.symbol.isSome = true ∨ imp.alias_.isSome = true ∨ WellFormedImportMatch cs) →
      ((cs.foldl (TsParser.tsImportCaptureStep ctx) imp).symbol.isSome = true ∨
       (cs.foldl (TsParser.tsImportCaptureStep ctx) imp).alias_.isSome = true) := by
  induction cs with
  | nil =>
    intro imp h
    rcases h with h | h | h
    · exact Or.inl h
    · exact Or.inr h
    · rcases h with ⟨t, ht⟩ | ⟨t, ht⟩ | ⟨t, ht⟩ <;> simp at ht
  | cons c rest ih =>
    intro imp h
    simp only [List.foldl_cons]
    apply ih
    rcases h with h | h | h
    · rcases tsImportCaptureStep_mono ctx imp c (Or.inl h) with h2 | h2
      · exact Or.inl h2
      · exact Or.inr (Or.inl h2)
    · rcases tsImportCaptureStep_mono ctx imp c (Or.inr h) with h2 | h2
      · exact Or.inl h2
      · exact Or.inr (Or.inl h2)
    · rcases h with ⟨t, ht⟩ | ⟨t, ht⟩ | ⟨t, ht⟩
      · rcases List.mem_cons.mp ht with hc | hc
        · rw [← hc, tsImportCaptureStep_default]
          exact Or.inl (by simp)
        · exact Or.inr (Or.inr (Or.inl ⟨t, hc⟩))
      · rcases List.mem_cons.mp ht with hc | hc
        · rw [← hc, tsImportCaptureStep_named]
          exact Or.inl (by simp)
        · exact Or.inr (Or.inr (Or.inr (Or.inl ⟨t, hc⟩)))
      · rcases List.mem_cons.mp ht with hc | hc
        · rw [← hc, tsImportCaptureStep_namespace]
          exact Or.inr (Or.inl (by simp))
        · exact Or.inr (Or.inr (Or.inr (Or.inr ⟨t, hc⟩)))

/-- C10: a pending import built from any well-formed `Import` query match
carries a symbol or an alias, so `import_name()` never reaches its
`unreachable!()` arm and the post-match bookkeeping that pushes the
pending import and extends `import_name_to_source_path` never panics. -/
theorem claim_C10_pending_import_never_panics (ctx : TsParser.Ctx)
    (cs : List TsParser.TextCapture) (h : WellFormedImportMatch cs) :
    ((TsParser.tsProcessImportMatch ctx cs).import_name).isSome = true ∧
    (∀ pending importMap,
      (TsParser.tsAfterImportMatch pending importMap
        (TsParser.tsProcessImportMatch ctx cs)).isSome = true) := by
  have hset := tsImportFold_sets ctx cs
    { language := Language.TypeScript, source_path := "", symbol := none, alias_ := none }
    (Or.inr (Or.inr h))
  have hname : ((TsParser.tsProcessImportMatch ctx cs).import_name).isSome = true := by
    unfold TsParser.tsProcessImportMatch at hset ⊢
    unfold PendingImport.import_name
    rcases hset with hs | ha
    · cases h1 : (List.foldl (TsParser.tsImportCaptureStep ctx)
          { language := Language.TypeScript, source_path := "", symbol := none,
            alias_ := none } cs).alias_ with
      | some a => simp
      | none =>
        cases h2 : (List.foldl (TsParser.tsImportCaptureStep ctx)
            { language := Language.TypeScript, source_path := "", symbol := none,
              alias_ := none } cs).symbol with
        | some s2 => simp
        | none => rw [h2] at hs; simp at hs
    · cases h1 : (List.foldl (TsParser.tsImportCaptureStep ctx)
          { language := Language.TypeScript, source_path := "", symbol := none,
            alias_ := none } cs).alias_ with
      | some a => simp
      | none => rw [h1] at ha; simp at ha
  refine ⟨hname, fun pending importMap => ?_⟩
  unfold TsParser.tsAfterImportMatch
  by_cases hsp : (TsParser.tsProcessImportMatch ctx cs).source_path = ""
  · simp [hsp]
  · rcases Option.isSome_iff_exists.mp hname with ⟨k, hk⟩
    simp [hsp, hk]

theorem claim_C10_witness :
    ((TsParser.tsProcessImportMatch witnessTsCtx
        [TsParser.TextCapture.mk "reference.named_import.name" "User",
         TsParser.TextCapture.mk "reference.import.source" "./types"]).import_name).isSome
      = true ∧
    (TsParser.tsAfterImportMatch [] []
        (TsParser.tsProcessImportMatch witnessTsCtx
          [TsParser.TextCapture.mk "reference.named_import.name" "User",
           TsParser.TextCapture.mk "reference.import.source" "./types"])).isSome = true := by
  have h := claim_C10_pending_import_never_panics witnessTsCtx
    [TsParser.TextCapture.mk "reference.named_import.name" "User",
     TsParser.TextCapture.mk "reference.import.source" "./types"]
    (Or.inr (Or.inl ⟨"User", by simp⟩))
  exact ⟨h.1, h.2 [] []⟩

/-! ## Staging and MERGE name handling (C9) -/

/-- C9 (counterexample): the JSON record staged for a node by the bulk
insert path keeps an empty `name` unchanged -- the `"."` substitution
claimed for empty names does not happen on the JSON bulk path. -/
theorem claim_C9_counterexample :
    ((Store.jsonNodeRecord (Node.from_type_and_name NodeType.Directory "")).find?
        (fun kv => kv.1 = "name")).map Prod.snd = some (Store.JValue.str "") ∧
    Store.JValue.str "" ≠ Store.JValue.str "." := by
  exact ⟨by decide, by decide⟩

/-- C9 (amended): the `"."` placeholder for empty names is applied only by
the CSV staging writers (node `name`, relationship `from`/`to`); the JSON
bulk records keep the raw names, and the per-node MERGE query splices
`node.name` in verbatim. -/
theorem claim_C9_amended (n : Node) (e : Edge) :
    (Store.write_node_csv_record n).head? =
      some (if n.name = "" then "." else n.name) ∧
    (Store.write_rel_csv_record e).head? =
      some (if e.from_.name = "" then "." else e.from_.name) ∧
    (Store.write_rel_csv_record e)[1]? =
      some (if e.to_.name = "" then "." else e.to_.name) ∧
    ((Store.jsonNodeRecord n).find? (fun kv => kv.1 = "name")).map Prod.snd =
      some (Store.JValue.str n.name) ∧
    ((Store.jsonRelRecord e).find? (fun kv => kv.1 = "from")).map Prod.snd =
      some (Store.JValue.str e.from_.name) ∧
    (∃ pre post, Store.upsert_node_query n =
      pre ++ ("\x7b name: \"" ++ n.name ++ "\" \x7d") ++ post) := by
  refine ⟨?_, ?_, ?_, ?_, ?_, ?_⟩
  · simp [Store.write_node_csv_record, Store.nodeToDict, Store.csvNodeField]
  · simp [Store.write_rel_csv_record, Store.edgeToDict, Store.csvRelField]
  · simp [Store.write_rel_csv_record, Store.edgeToDict, Store.csvRelField]
  · simp [Store.jsonNodeRecord, Store.nodeToDict, List.find?]
  · simp [Store.jsonRelRecord, Store.edgeToDict, List.find?]
  · refine ⟨"\nMERGE (n:" ++ Store.to_title_case (Store.nodeTypeStr n.type) ++ " ",
      ")\nON CREATE SET " ++ Store.to_set_data "n" "name" (Store.nodeToDict n) ++
        "\nON MATCH SET " ++ Store.to_set_data "n" "name" (Store.nodeToDict n) ++ "\n", ?_⟩
    unfold Store.upsert_node_query
    have hlit1 : (" " ++ "\x7b name: \"" : String) = " \x7b name: \"" := by decide
    have hsplit1 : ∀ s : String, " " ++ ("\x7b name: \"" ++ s) = " \x7b name: \"" ++ s := by
      intro s
      rw [← String.append_assoc, hlit1]
    have hlit2 : ("\" \x7d" ++ ")\nON CREATE SET " : String) = "\" \x7d)\nON CREATE SET " := by
      decide
    have hsplit2 : ∀ s : String,
        "\" \x7d" ++ (")\nON CREATE SET " ++ s) = "\" \x7d)\nON CREATE SET " ++ s := by
      intro s
      rw [← String.append_assoc, hlit2]
    simp only [String.append_assoc]
    rw [hsplit1, hsplit2]

/-! ## Go import edges (C4) -/

/-- Definitional shape of `goImportEdgeOfPath`. -/
theorem goImportEdgeOfPath_eq (ctx : GoParser.Ctx) (pathName : String) :
    GoParser.goImportEdgeOfPath ctx pathName =
      match ctx.goModulePath with
      | none => none
      | some gmp =>
        match get_repo_module_file_path "" gmp (GoParser.parseGoImportEntry pathName).2 with
        | none => none
        | some modFilePath =>
          some
            { type := EdgeType.Imports
              from_ := Node.from_type_and_name ctx.fileNode.type ctx.fileNode.name
              to_ := Node.from_type_and_name NodeType.Directory modFilePath
              imp := some (afterLastSep (fun c => c = '/')
                (GoParser.parseGoImportEntry pathName).2)
              alias_ := (GoParser.parseGoImportEntry pathName).1 } := rfl

/-- Success of the module-path mapping is exactly the prefix test. -/
theorem get_repo_module_file_path_isSome (rp rmp mip : String) :
    (get_repo_module_file_path rp rmp mip).isSome = startsWithStr mip rmp := by
  unfold get_repo_module_file_path stripPrefixOpt startsWithStr
  cases h : rmp.toList.isPrefixOf mip.toList <;> simp [h]

/-- C4: a Go import path yields an `Imports` edge exactly when a module
path is known and the (quote- and alias-stripped) import path starts with
it; the edge runs from the file node to a `Directory` node at the
module-relative path, `import` is the path's last segment and `alias` is
the parsed alias. -/
theorem claim_C4_go_import_edges (ctx : GoParser.Ctx) (pathName : String) :
    ((GoParser.goImportEdgeOfPath ctx pathName).isSome = true ↔
      (∃ m, ctx.goModulePath = some m ∧
        startsWithStr (GoParser.parseGoImportEntry pathName).2 m = true)) ∧
    (∀ e, GoParser.goImportEdgeOfPath ctx pathName = some e →
      e.type = EdgeType.Imports ∧
      e.from_.name = ctx.fileNode.name ∧
      e.from_.type = ctx.fileNode.type ∧
      e.to_.type = NodeType.Directory ∧
      e.imp = some (afterLastSep (fun c => c = '/') (GoParser.parseGoImportEntry pathName).2) ∧
      e.alias_ = (GoParser.parseGoImportEntry pathName).1 ∧
      (∃ m, ctx.goModulePath = some m ∧
        get_repo_module_file_path "" m (GoParser.parseGoImportEntry pathName).2 =
          some e.to_.name)) := by
  cases hm : ctx.goModulePath with
  | none =>
    rw [goImportEdgeOfPath_eq, hm]
    constructor
    · simp
    · intro e he
      simp at he
  | some m =>
    cases hg : get_repo_module_file_path "" m (GoParser.parseGoImportEntry pathName).2 with
    | none =>
      rw [goImportEdgeOfPath_eq, hm]
      constructor
      · simp only [hg, Option.isSome_none]
        constructor
        · intro h
          simp at h
        · rintro ⟨m2, hm2, hpre⟩
          rw [Option.some.injEq] at hm2
          subst hm2
          have hiso := get_repo_module_file_path_isSome "" m (GoParser.parseGoImportEntry pathName).2
          rw [hg, hpre] at hiso
          simp at hiso
      · intro e he
        simp [hg] at he
    | some rel =>
      rw [goImportEdgeOfPath_eq, hm]
      constructor
      · simp only [hg, Option.isSome_some, true_iff]
        refine ⟨m, hm ▸ rfl, ?_⟩
        have hiso := get_repo_module_file_path_isSome "" m (GoParser.parseGoImportEntry pathName).2
        rw [hg] at hiso
        simpa using hiso.symm
      · intro e he
        simp only [hg, Option.some.injEq] at he
        subst he
        exact ⟨rfl, rfl, rfl, rfl, rfl, rfl, m, hm ▸ rfl, by rw [hg]; rfl⟩


theorem claim_C4_witness :
    ((GoParser.goImportEdgeOfPath
        { source := [], repoRelFile := "main.go",
          fileNode := Node.from_type_and_name NodeType.File "main.go",
          goModulePath := some "github.com/u/r" }
        "\"github.com/u/r/pkg\"").map Edge.imp = some (some "pkg")) ∧
    ((GoParser.goImportEdgeOfPath
        { source := [], repoRelFile := "main.go",
          fileNode := Node.from_type_and_name NodeType.File "main.go",
          goModulePath := some "github.com/u/r" }
        "\"github.com/u/r/pkg\"").map Edge.alias_ = some none) ∧
    ((GoParser.goImportEdgeOfPath
        { source := [], repoRelFile := "main.go",
          fileNode := Node.from_type_and_name NodeType.File "main.go",
          goModulePath := some "github.com/u/r" }
        "\"github.com/u/r/pkg\"").map (fun e => e.to_.name) = some "pkg") := by
  have hsome := (claim_C4_go_import_edges
    { source := [], repoRelFile := "main.go",
      fileNode := Node.from_type_and_name NodeType.File "main.go",
      goModulePath := some "github.com/u/r" }
    "\"github.com/u/r/pkg\"").1.mpr ⟨"github.com/u/r", rfl, by decide⟩
  rcases Option.isSome_iff_exists.mp hsome with ⟨e, he⟩
  have hprops := (claim_C4_go_import_edges
    { source := [], repoRelFile := "main.go",
      fileNode := Node.from_type_and_name NodeType.File "main.go",
      goModulePath := some "github.com/u/r" }
    "\"github.com/u/r/pkg\"").2 e he
  rcases hprops with ⟨-, -, -, -, himp, halias, m, hmeq, hrel⟩
  have hm2 : "github.com/u/r" = m := by simpa using hmeq
  subst hm2
  have hto : some "pkg" = some e.to_.name := by
    rw [← hrel]
    decide
  rw [Option.some.injEq] at hto
  refine ⟨?_, ?_, ?_⟩
  · rw [he]
    show some e.imp = some (some "pkg")
    rw [himp]
    decide
  · rw [he]
    show some e.alias_ = some none
    rw [halias]
    decide
  · rw [he]
    show some e.to_.name = some "pkg"
    rw [← hto]

end Codegraph
